import Mathlib

/-!
# Verification of the TwixT board engine (`src/twixt.js`)

This file embeds the `Board` rule engine of the repository — peg placement,
barrier placement with its segment-intersection test, removal semantics, the
barrier-adjacency query and the flood-fill win detection — and proves the
specification claims about it.

Modeling conventions, each justified against the JavaScript source:

* The occupancy store `this.pegState` is a JS `Map` keyed by the string
  `"x_y"` (`_stringifyPegTuple`).  That stringification is injective on
  integer pairs (exactly one underscore separates the two decimal numerals)
  and `_destringifyPegTuple` inverts it, so peg-tuple strings are modeled by
  the integer pairs themselves and the `Map` by a function
  `(ℤ × ℤ) → Option Player`, where `none` is JS `undefined` (the value
  `Map.get` returns for an absent key).  `Map.set` is function update.
* JS numbers are IEEE doubles.  All coordinates handled by the engine are
  small integers, and integer arithmetic on them (differences, squares,
  sums, the `!== 5` test) is exact in doubles, so integer coordinates are
  modeled by `ℤ`.  The slope / intersection arithmetic of `placeBarrier`
  is modeled by `ℚ`; see the comment on `barrierConflict` for the proof
  sketch that on boards satisfying the specified barrier invariant the
  double-precision computation decides every comparison exactly as the
  rational one does.
* `Array.push` appends at the end; `Array.pop` removes from the end;
  `Array.splice(i,1)` deletes the element at index `i`; `Array.filter`
  keeps elements in order.  All are modeled by the corresponding pure list
  operations.
-/

/-- Player enum of the source (`Player.R`, `Player.B`, `Player.X` = none). -/
inductive Player where
  | R : Player
  | B : Player
  | X : Player
deriving DecidableEq, Repr

/-- A peg location, an (x, y) coordinate on the board (class `Peg`). -/
structure Peg where
  x : Int
  y : Int
deriving DecidableEq, Repr

/-- The `asTuple` getter: convert to the 2-long array representation. -/
def Peg.asTuple (p : Peg) : Int × Int := (p.x, p.y)

/-- The `equals` method of `Peg` (structural equality as a JS boolean). -/
def Peg.equals (p q : Peg) : Bool := decide (p.x = q.x) && decide (p.y = q.y)

/-- The `lt` method of `Peg`: lexical ordering, x first, then y. -/
def Peg.lt (p q : Peg) : Bool :=
  if p.x = q.x then decide (p.y < q.y) else decide (p.x < q.x)

/-- The top-level helper `between(val, end1, end2)` of the source:
`((end1<val) && (val<end2)) || ((end1>val) && (val>end2))`. -/
def between (val e1 e2 : ℚ) : Bool :=
  (decide (e1 < val) && decide (val < e2)) || (decide (e1 > val) && decide (val > e2))

/-- A TwixT board (class `Board`): occupancy map and one barrier list per
player.  A barrier is the pair of its endpoint pegs. -/
structure Board where
  pegState : (Int × Int) → Option Player
  redBarrierState : List (Peg × Peg)
  blackBarrierState : List (Peg × Peg)

/-- The private `_setPeg` helper: `Map.set` on the occupancy store. -/
def setPegMap (m : (Int × Int) → Option Player) (t : Int × Int) (v : Player) :
    (Int × Int) → Option Player :=
  Function.update m t (some v)

/-- The `getPeg` accessor: `Map.get`, `none` when the key is absent. -/
def Board.getPeg (b : Board) (t : Int × Int) : Option Player := b.pegState t

/-- The occupancy map built by the `Board` constructor: the double loop
`for i=1..24, for j=1..24: _setPeg([i,j], Player.X)` starting from an empty
map. -/
def initPegState : (Int × Int) → Option Player :=
  (List.range 24).foldl
    (fun m (i : ℕ) =>
      (List.range 24).foldl (fun m' (j : ℕ) => setPegMap m' ((i : Int) + 1, (j : Int) + 1) Player.X) m)
    (fun _ => none)

/-- A freshly constructed `Board`: every grid cell `Player.X`, no barriers. -/
def freshBoard : Board :=
  { pegState := initPegState, redBarrierState := [], blackBarrierState := [] }

/-- `placePeg(peg, color)` of the source: home-line checks, emptiness check,
then the single cell mutation.  Returns the JS success boolean together with
the (possibly unchanged) board. -/
def Board.placePeg (b : Board) (peg : Peg) (color : Player) : Bool × Board :=
  if color = Player.R ∧ (peg.x = 1 ∨ peg.x = 24) then (false, b)
  else if color = Player.B ∧ (peg.y = 1 ∨ peg.y = 24) then (false, b)
  else if b.getPeg peg.asTuple ≠ some Player.X then (false, b)
  else (true, { b with pegState := setPegMap b.pegState peg.asTuple color })

/-- Squared distance `(peg2.y-peg1.y)**2 + (peg2.x-peg1.x)**2` used by the
barrier-distance check of `placeBarrier`. -/
def dist2 (p q : Peg) : Int := (q.y - p.y) ^ 2 + (q.x - p.x) ^ 2

/-- Body of the intersection loop of `placeBarrier` for one existing barrier
`(peg3, peg4)`: `true` exactly when the loop's `return false` would fire.

The source computes with IEEE doubles; we compute in `ℚ`.  On any board
satisfying the specified barrier invariant (all coordinates in `[1,24]`,
every barrier of squared length 5) the two agree on every branch taken:
slopes are `±1/2` or `±2`, exactly representable; the numerator of `x` is a
half-integer of magnitude at most a few hundred, computed exactly; the
denominator `m1 - m3` lies in `{±1, ±3/2, ±5/2, ±4}`; hence the exact value
of `x` (and likewise `y`) is a rational with denominator dividing `8`, `3`
or `5`, so either it is a dyadic rational computed exactly by the doubles,
or it is at distance at least `1/16` from every integer while the doubles
round it with error below `10^-12` — in both cases every strict comparison
of the `between` calls, and the slope-equality test, decide exactly as in
`ℚ`. -/
def barrierConflict (peg1 peg2 peg3 peg4 : Peg) : Bool :=
  let m1 : ℚ := ((peg2.y : ℚ) - (peg1.y : ℚ)) / ((peg2.x : ℚ) - (peg1.x : ℚ))
  let m3 : ℚ := ((peg4.y : ℚ) - (peg3.y : ℚ)) / ((peg4.x : ℚ) - (peg3.x : ℚ))
  if m1 = m3 then
    (peg1.equals peg3 && peg2.equals peg4) || (peg1.equals peg4 && peg2.equals peg3)
  else
    let x : ℚ := ((peg1.x : ℚ) * m1 - (peg3.x : ℚ) * m3 + (peg3.y : ℚ) - (peg1.y : ℚ)) / (m1 - m3)
    let y : ℚ := m1 * (x - (peg1.x : ℚ)) + (peg1.y : ℚ)
    between x (peg1.x : ℚ) (peg2.x : ℚ) && between x (peg3.x : ℚ) (peg4.x : ℚ) &&
      between y (peg1.y : ℚ) (peg2.y : ℚ) && between y (peg3.y : ℚ) (peg4.y : ℚ)

/-- The canonical ordering applied before storing or looking up a barrier:
`peg1.lt(peg2) ? [peg1,peg2] : [peg2,peg1]`. -/
def canonBarrier (peg1 peg2 : Peg) : Peg × Peg :=
  if peg1.lt peg2 then (peg1, peg2) else (peg2, peg1)

/-- `placeBarrier(peg1, peg2, color)` of the source: distance check,
ownership check, intersection loop over the concatenation of both barrier
lists (a pure loop whose only effect is an early `return false`, hence
`List.any`), then append of the canonically ordered barrier to the list of
`color` (`Player.X` falls through to `return false`). -/
def Board.placeBarrier (b : Board) (peg1 peg2 : Peg) (color : Player) : Bool × Board :=
  if dist2 peg1 peg2 ≠ 5 then (false, b)
  else if b.getPeg peg1.asTuple ≠ some color ∨ b.getPeg peg2.asTuple ≠ some color then (false, b)
  else if (b.redBarrierState ++ b.blackBarrierState).any
      (fun br => barrierConflict peg1 peg2 br.1 br.2) then (false, b)
  else
    match color with
    | Player.R => (true, { b with redBarrierState := b.redBarrierState ++ [canonBarrier peg1 peg2] })
    | Player.B => (true, { b with blackBarrierState := b.blackBarrierState ++ [canonBarrier peg1 peg2] })
    | Player.X => (false, b)

/-- `removePeg(peg, color)` of the source: ownership check, filter of
`color`'s barrier list (`!(peg.equals(val[0])) && !(peg.equals(val[1]))`;
the `else` branch of the source filters the black list for every non-red
`color`), then the cell reset to `Player.X`. -/
def Board.removePeg (b : Board) (peg : Peg) (color : Player) : Bool × Board :=
  if b.getPeg peg.asTuple = some color then
    if color = Player.R then
      (true,
        { b with
          pegState := setPegMap b.pegState peg.asTuple Player.X
          redBarrierState :=
            b.redBarrierState.filter (fun v => !(peg.equals v.1) && !(peg.equals v.2)) })
    else
      (true,
        { b with
          pegState := setPegMap b.pegState peg.asTuple Player.X
          blackBarrierState :=
            b.blackBarrierState.filter (fun v => !(peg.equals v.1) && !(peg.equals v.2)) })
  else (false, b)

/-- The index scan of `removeBarrier`: find the first structural match of
the canonical barrier and delete it (`splice(i,1)`), or fail. -/
def removeFirstBarrier (barrier : Peg × Peg) : List (Peg × Peg) → Option (List (Peg × Peg))
  | [] => none
  | tb :: rest =>
    if barrier.1.equals tb.1 && barrier.2.equals tb.2 then some rest
    else (removeFirstBarrier barrier rest).map (fun l => tb :: l)

/-- `removeBarrier(peg1, peg2, color)` of the source: canonicalize the
endpoint order, scan the barrier list of `color` (the red list exactly when
`color === Player.R`, otherwise the black list) for a structural match and
splice it out. -/
def Board.removeBarrier (b : Board) (peg1 peg2 : Peg) (color : Player) : Bool × Board :=
  if color = Player.R then
    match removeFirstBarrier (canonBarrier peg1 peg2) b.redBarrierState with
    | some l => (true, { b with redBarrierState := l })
    | none => (false, b)
  else
    match removeFirstBarrier (canonBarrier peg1 peg2) b.blackBarrierState with
    | some l => (true, { b with blackBarrierState := l })
    | none => (false, b)

/-- Body of the collection loop of `getAdjacentPegs` over one barrier list:
for each barrier push the opposite endpoint of every endpoint equal to
`peg`. -/
def adjCollect (peg : Peg) : List (Peg × Peg) → List Peg
  | [] => []
  | br :: rest =>
    ((if peg.equals br.1 then [br.2] else []) ++ (if peg.equals br.2 then [br.1] else [])) ++
      adjCollect peg rest

/-- `getAdjacentPegs(peg)` of the source: choose the barrier list from the
occupancy at `peg` (black, red, otherwise the empty result), then collect
opposite endpoints. -/
def Board.getAdjacentPegs (b : Board) (peg : Peg) : List Peg :=
  match b.getPeg peg.asTuple with
  | some Player.B => adjCollect peg b.blackBarrierState
  | some Player.R => adjCollect peg b.redBarrierState
  | _ => []

/-! ## Basic lemmas about the value types -/

theorem Peg.equals_iff (p q : Peg) : p.equals q = true ↔ p = q := by
  cases p
  cases q
  simp [Peg.equals, Peg.mk.injEq]

theorem Peg.asTuple_inj {p q : Peg} (h : p.asTuple = q.asTuple) : p = q := by
  cases p
  cases q
  simpa [Peg.asTuple, Prod.ext_iff, Peg.mk.injEq] using h

theorem Peg.lt_total {p q : Peg} (h : p ≠ q) : p.lt q = true ∨ q.lt p = true := by
  cases p with
  | mk px py =>
    cases q with
    | mk qx qy =>
      simp only [Peg.lt]
      by_cases hx : px = qx
      · subst hx
        have hy : py ≠ qy := by
          intro h2
          exact h (by rw [h2])
        simp only [if_pos rfl]
        rcases lt_or_gt_of_ne hy with h3 | h3
        · exact Or.inl (by simpa using h3)
        · exact Or.inr (by simpa using h3)
      · rcases lt_or_gt_of_ne hx with h3 | h3
        · exact Or.inl (by simp [hx, h3])
        · refine Or.inr ?_
          rw [if_neg (Ne.symm hx)]
          simpa using h3

theorem Peg.lt_asymm {p q : Peg} (hp : p.lt q = true) : q.lt p = false := by
  cases p with
  | mk px py =>
    cases q with
    | mk qx qy =>
      simp only [Peg.lt] at hp ⊢
      by_cases hx : px = qx
      · subst hx
        simp only [if_pos rfl] at hp ⊢
        simp at hp ⊢
        omega
      · rw [if_neg hx] at hp
        rw [if_neg (Ne.symm hx)]
        simp at hp ⊢
        omega

theorem canonBarrier_comm {p q : Peg} (h : p ≠ q) : canonBarrier q p = canonBarrier p q := by
  rcases Peg.lt_total h with h1 | h1
  · rw [canonBarrier, canonBarrier, if_pos h1, if_neg (by simp [Peg.lt_asymm h1])]
  · rw [canonBarrier, canonBarrier, if_pos h1, if_neg (by simp [Peg.lt_asymm h1])]

/-! ## Characterization of the freshly constructed occupancy map -/

/-- Grid membership: both coordinates in `[1, 24]`. -/
def InGrid (t : Int × Int) : Prop := (1 ≤ t.1 ∧ t.1 ≤ 24) ∧ (1 ≤ t.2 ∧ t.2 ≤ 24)

instance : DecidablePred InGrid := fun t => by
  unfold InGrid
  infer_instance

theorem innerFold_apply (i : ℕ) (l : List ℕ) (m : (Int × Int) → Option Player) (t : Int × Int) :
    (l.foldl (fun m' (j : ℕ) => setPegMap m' ((i : Int) + 1, (j : Int) + 1) Player.X) m) t
      = if t.1 = (i : Int) + 1 ∧ ∃ j ∈ l, t.2 = (j : Int) + 1 then some Player.X else m t := by
  induction l generalizing m with
  | nil => simp
  | cons j js ih =>
    rw [List.foldl_cons, ih]
    by_cases h1 : t.1 = (i : Int) + 1 ∧ ∃ k ∈ js, t.2 = (k : Int) + 1
    · rw [if_pos h1, if_pos ⟨h1.1, h1.2.elim fun k hk => ⟨k, List.mem_cons_of_mem _ hk.1, hk.2⟩⟩]
    · rw [if_neg h1]
      by_cases h2 : t = ((i : Int) + 1, (j : Int) + 1)
      · rw [setPegMap, Function.update_apply, if_pos h2,
          if_pos ⟨by rw [h2], ⟨j, List.mem_cons_self _ _, by rw [h2]⟩⟩]
      · rw [setPegMap, Function.update_apply, if_neg h2, if_neg ?_]
        rintro ⟨ha, k, hk, hb⟩
        rcases List.mem_cons.1 hk with rfl | hk2
        · exact h2 (Prod.ext ha hb)
        · exact h1 ⟨ha, k, hk2, hb⟩

theorem outerFold_apply (l : List ℕ) (m : (Int × Int) → Option Player) (t : Int × Int) :
    (l.foldl
        (fun m (i : ℕ) =>
          (List.range 24).foldl
            (fun m' (j : ℕ) => setPegMap m' ((i : Int) + 1, (j : Int) + 1) Player.X) m)
        m) t
      = if (∃ i ∈ l, t.1 = (i : Int) + 1) ∧ ∃ j ∈ List.range 24, t.2 = (j : Int) + 1 then
          some Player.X
        else m t := by
  induction l generalizing m with
  | nil => simp
  | cons i is ih =>
    rw [List.foldl_cons, ih]
    by_cases h1 : (∃ k ∈ is, t.1 = (k : Int) + 1) ∧ ∃ j ∈ List.range 24, t.2 = (j : Int) + 1
    · rw [if_pos h1,
        if_pos ⟨h1.1.elim fun k hk => ⟨k, List.mem_cons_of_mem _ hk.1, hk.2⟩, h1.2⟩]
    · rw [if_neg h1, innerFold_apply]
      by_cases h2 : t.1 = (i : Int) + 1 ∧ ∃ j ∈ List.range 24, t.2 = (j : Int) + 1
      · rw [if_pos h2, if_pos ⟨⟨i, List.mem_cons_self _ _, h2.1⟩, h2.2⟩]
      · rw [if_neg h2, if_neg ?_]
        rintro ⟨⟨k, hk, ha⟩, hb⟩
        rcases List.mem_cons.1 hk with rfl | hk2
        · exact h2 ⟨ha, hb⟩
        · exact h1 ⟨⟨k, hk2, ha⟩, hb⟩

theorem exists_range24 (z : Int) : (∃ i ∈ List.range 24, z = (i : Int) + 1) ↔ 1 ≤ z ∧ z ≤ 24 := by
  constructor
  · rintro ⟨i, hi, rfl⟩
    rw [List.mem_range] at hi
    omega
  · rintro ⟨h1, h2⟩
    refine ⟨(z - 1).toNat, ?_, ?_⟩
    · rw [List.mem_range]
      omega
    · omega

theorem initPegState_apply (t : Int × Int) :
    initPegState t = if InGrid t then some Player.X else none := by
  rw [initPegState, outerFold_apply]
  by_cases h : InGrid t
  · rw [if_pos h, if_pos ⟨(exists_range24 t.1).2 h.1, (exists_range24 t.2).2 h.2⟩]
  · rw [if_neg h, if_neg ?_]
    rintro ⟨ha, hb⟩
    exact h ⟨(exists_range24 t.1).1 ha, (exists_range24 t.2).1 hb⟩

/-! ## Reachable states and the barrier invariant -/

/-- The states reachable from a fresh `Board` by the public mutating
operations (queries do not change the state). -/
inductive Reachable : Board → Prop where
  | fresh : Reachable freshBoard
  | placePeg : ∀ b p c, Reachable b → Reachable (b.placePeg p c).2
  | placeBarrier : ∀ b p q c, Reachable b → Reachable (b.placeBarrier p q c).2
  | removePeg : ∀ b p c, Reachable b → Reachable (b.removePeg p c).2
  | removeBarrier : ∀ b p q c, Reachable b → Reachable (b.removeBarrier p q c).2

/-- The specified invariant of one barrier list: every barrier has squared
endpoint distance exactly 5 and both endpoints currently hold the owning
player's peg. -/
def BarrInv (b : Board) (lst : List (Peg × Peg)) (c : Player) : Prop :=
  ∀ br ∈ lst, dist2 br.1 br.2 = 5 ∧
    b.getPeg br.1.asTuple = some c ∧ b.getPeg br.2.asTuple = some c

/-- Full board invariant: occupied cells lie on the grid and both barrier
lists satisfy `BarrInv` for their owner. -/
def BoardInv (b : Board) : Prop :=
  (∀ t, b.pegState t ≠ none → InGrid t) ∧
    BarrInv b b.redBarrierState Player.R ∧ BarrInv b b.blackBarrierState Player.B

theorem Board.getPeg_eq (b : Board) (t : Int × Int) : b.getPeg t = b.pegState t := rfl

theorem dist2_comm (p q : Peg) : dist2 p q = dist2 q p := by
  unfold dist2
  ring

theorem canonBarrier_cases (p q : Peg) : canonBarrier p q = (p, q) ∨ canonBarrier p q = (q, p) := by
  rw [canonBarrier]
  split
  · exact Or.inl rfl
  · exact Or.inr rfl

theorem removeFirstBarrier_mem {bar : Peg × Peg} :
    ∀ {lst l : List (Peg × Peg)}, removeFirstBarrier bar lst = some l → ∀ x ∈ l, x ∈ lst := by
  intro lst
  induction lst with
  | nil => intro l h; cases h
  | cons tb rest ih =>
    intro l h x hx
    rw [removeFirstBarrier] at h
    by_cases hm : (bar.1.equals tb.1 && bar.2.equals tb.2) = true
    · rw [if_pos hm] at h
      cases h
      exact List.mem_cons_of_mem _ hx
    · rw [if_neg hm] at h
      cases hrec : removeFirstBarrier bar rest with
      | none => rw [hrec] at h; cases h
      | some l' =>
        rw [hrec] at h
        cases h
        rcases List.mem_cons.1 hx with rfl | hx2
        · exact List.mem_cons_self _ _
        · exact List.mem_cons_of_mem _ (ih hrec x hx2)

theorem filter_touch_mem {peg : Peg} {lst : List (Peg × Peg)} {br : Peg × Peg}
    (h : br ∈ lst.filter (fun v => !(peg.equals v.1) && !(peg.equals v.2))) :
    br ∈ lst ∧ br.1 ≠ peg ∧ br.2 ≠ peg := by
  rw [List.mem_filter] at h
  obtain ⟨h1, h2⟩ := h
  rw [Bool.and_eq_true, Bool.not_eq_true', Bool.not_eq_true'] at h2
  refine ⟨h1, ?_, ?_⟩
  · intro he
    have h3 : peg.equals br.1 = true := (Peg.equals_iff peg br.1).2 he.symm
    rw [h2.1] at h3
    cases h3
  · intro he
    have h3 : peg.equals br.2 = true := (Peg.equals_iff peg br.2).2 he.symm
    rw [h2.2] at h3
    cases h3

theorem boardInv_placePeg (b : Board) (p : Peg) (c : Player) (h : BoardInv b) :
    BoardInv (b.placePeg p c).2 := by
  rw [Board.placePeg]
  by_cases h1 : c = Player.R ∧ (p.x = 1 ∨ p.x = 24)
  · rw [if_pos h1]
    exact h
  rw [if_neg h1]
  by_cases h2 : c = Player.B ∧ (p.y = 1 ∨ p.y = 24)
  · rw [if_pos h2]
    exact h
  rw [if_neg h2]
  by_cases h3 : b.getPeg p.asTuple ≠ some Player.X
  · rw [if_pos h3]
    exact h
  rw [if_neg h3]
  push_neg at h3
  refine ⟨?_, ?_, ?_⟩
  · intro t ht
    simp only [setPegMap, Function.update_apply] at ht
    by_cases he : t = p.asTuple
    · exact he ▸ h.1 p.asTuple (by rw [← Board.getPeg_eq, h3]; simp)
    · rw [if_neg he] at ht
      exact h.1 t ht
  · intro br hbr
    obtain ⟨hd, hr1, hr2⟩ := h.2.1 br hbr
    rw [Board.getPeg_eq] at hr1 hr2 ⊢
    refine ⟨hd, ?_, ?_⟩
    · show setPegMap b.pegState p.asTuple c br.1.asTuple = some Player.R
      rw [setPegMap, Function.update_apply, if_neg ?_]
      · exact hr1
      · intro he
        rw [he, ← Board.getPeg_eq, h3] at hr1
        cases hr1
    · show setPegMap b.pegState p.asTuple c br.2.asTuple = some Player.R
      rw [setPegMap, Function.update_apply, if_neg ?_]
      · exact hr2
      · intro he
        rw [he, ← Board.getPeg_eq, h3] at hr2
        cases hr2
  · intro br hbr
    obtain ⟨hd, hr1, hr2⟩ := h.2.2 br hbr
    rw [Board.getPeg_eq] at hr1 hr2 ⊢
    refine ⟨hd, ?_, ?_⟩
    · show setPegMap b.pegState p.asTuple c br.1.asTuple = some Player.B
      rw [setPegMap, Function.update_apply, if_neg ?_]
      · exact hr1
      · intro he
        rw [he, ← Board.getPeg_eq, h3] at hr1
        cases hr1
    · show setPegMap b.pegState p.asTuple c br.2.asTuple = some Player.B
      rw [setPegMap, Function.update_apply, if_neg ?_]
      · exact hr2
      · intro he
        rw [he, ← Board.getPeg_eq, h3] at hr2
        cases hr2

theorem boardInv_placeBarrier (b : Board) (p q : Peg) (c : Player) (h : BoardInv b) :
    BoardInv (b.placeBarrier p q c).2 := by
  rw [Board.placeBarrier.eq_def]
  by_cases h1 : dist2 p q ≠ 5
  · rw [if_pos h1]
    exact h
  rw [if_neg h1]
  push_neg at h1
  by_cases h2 : b.getPeg p.asTuple ≠ some c ∨ b.getPeg q.asTuple ≠ some c
  · rw [if_pos h2]
    exact h
  rw [if_neg h2]
  push_neg at h2
  obtain ⟨h2p, h2q⟩ := h2
  by_cases h3 : (b.redBarrierState ++ b.blackBarrierState).any
      (fun br => barrierConflict p q br.1 br.2) = true
  · rw [if_pos h3]
    exact h
  rw [if_neg h3]
  cases c with
  | R =>
    refine ⟨h.1, ?_, h.2.2⟩
    intro br hbr
    rcases List.mem_append.1 hbr with hbr2 | hbr2
    · exact h.2.1 br hbr2
    · rw [List.mem_singleton] at hbr2
      subst hbr2
      rcases canonBarrier_cases p q with hc | hc <;> rw [hc]
      · exact ⟨h1, h2p, h2q⟩
      · exact ⟨dist2_comm q p ▸ h1, h2q, h2p⟩
  | B =>
    refine ⟨h.1, h.2.1, ?_⟩
    intro br hbr
    rcases List.mem_append.1 hbr with hbr2 | hbr2
    · exact h.2.2 br hbr2
    · rw [List.mem_singleton] at hbr2
      subst hbr2
      rcases canonBarrier_cases p q with hc | hc <;> rw [hc]
      · exact ⟨h1, h2p, h2q⟩
      · exact ⟨dist2_comm q p ▸ h1, h2q, h2p⟩
  | X => exact h

theorem boardInv_removePeg (b : Board) (p : Peg) (c : Player) (h : BoardInv b) :
    BoardInv (b.removePeg p c).2 := by
  rw [Board.removePeg]
  by_cases h1 : b.getPeg p.asTuple = some c
  · rw [if_pos h1]
    by_cases hc : c = Player.R
    · rw [if_pos hc]
      refine ⟨?_, ?_, ?_⟩
      · intro t ht
        simp only [setPegMap, Function.update_apply] at ht
        by_cases he : t = p.asTuple
        · exact he ▸ h.1 p.asTuple (by rw [← Board.getPeg_eq, h1]; simp)
        · rw [if_neg he] at ht
          exact h.1 t ht
      · intro br hbr
        obtain ⟨hmem, hne1, hne2⟩ := filter_touch_mem hbr
        obtain ⟨hd, hr1, hr2⟩ := h.2.1 br hmem
        refine ⟨hd, ?_, ?_⟩
        · show setPegMap b.pegState p.asTuple Player.X br.1.asTuple = some Player.R
          rw [setPegMap, Function.update_apply, if_neg (fun he => hne1 (Peg.asTuple_inj he))]
          exact hr1
        · show setPegMap b.pegState p.asTuple Player.X br.2.asTuple = some Player.R
          rw [setPegMap, Function.update_apply, if_neg (fun he => hne2 (Peg.asTuple_inj he))]
          exact hr2
      · intro br hbr
        obtain ⟨hd, hr1, hr2⟩ := h.2.2 br hbr
        refine ⟨hd, ?_, ?_⟩
        · show setPegMap b.pegState p.asTuple Player.X br.1.asTuple = some Player.B
          rw [setPegMap, Function.update_apply, if_neg ?_]
          · exact hr1
          · intro he
            rw [Board.getPeg_eq, he, ← Board.getPeg_eq, h1, hc] at hr1
            cases hr1
        · show setPegMap b.pegState p.asTuple Player.X br.2.asTuple = some Player.B
          rw [setPegMap, Function.update_apply, if_neg ?_]
          · exact hr2
          · intro he
            rw [Board.getPeg_eq, he, ← Board.getPeg_eq, h1, hc] at hr2
            cases hr2
    · rw [if_neg hc]
      refine ⟨?_, ?_, ?_⟩
      · intro t ht
        simp only [setPegMap, Function.update_apply] at ht
        by_cases he : t = p.asTuple
        · exact he ▸ h.1 p.asTuple (by rw [← Board.getPeg_eq, h1]; simp)
        · rw [if_neg he] at ht
          exact h.1 t ht
      · intro br hbr
        obtain ⟨hd, hr1, hr2⟩ := h.2.1 br hbr
        refine ⟨hd, ?_, ?_⟩
        · show setPegMap b.pegState p.asTuple Player.X br.1.asTuple = some Player.R
          rw [setPegMap, Function.update_apply, if_neg ?_]
          · exact hr1
          · intro he
            rw [Board.getPeg_eq, he, ← Board.getPeg_eq, h1] at hr1
            exact hc (by cases hr1; rfl)
        · show setPegMap b.pegState p.asTuple Player.X br.2.asTuple = some Player.R
          rw [setPegMap, Function.update_apply, if_neg ?_]
          · exact hr2
          · intro he
            rw [Board.getPeg_eq, he, ← Board.getPeg_eq, h1] at hr2
            exact hc (by cases hr2; rfl)
      · intro br hbr
        obtain ⟨hmem, hne1, hne2⟩ := filter_touch_mem hbr
        obtain ⟨hd, hr1, hr2⟩ := h.2.2 br hmem
        refine ⟨hd, ?_, ?_⟩
        · show setPegMap b.pegState p.asTuple Player.X br.1.asTuple = some Player.B
          rw [setPegMap, Function.update_apply, if_neg (fun he => hne1 (Peg.asTuple_inj he))]
          exact hr1
        · show setPegMap b.pegState p.asTuple Player.X br.2.asTuple = some Player.B
          rw [setPegMap, Function.update_apply, if_neg (fun he => hne2 (Peg.asTuple_inj he))]
          exact hr2
  · rw [if_neg h1]
    exact h

theorem boardInv_removeBarrier (b : Board) (p q : Peg) (c : Player) (h : BoardInv b) :
    BoardInv (b.removeBarrier p q c).2 := by
  rw [Board.removeBarrier]
  by_cases hc : c = Player.R
  · rw [if_pos hc]
    cases hrm : removeFirstBarrier (canonBarrier p q) b.redBarrierState with
    | none => exact h
    | some l =>
      refine ⟨h.1, ?_, h.2.2⟩
      intro br hbr
      exact h.2.1 br (removeFirstBarrier_mem hrm br hbr)
  · rw [if_neg hc]
    cases hrm : removeFirstBarrier (canonBarrier p q) b.blackBarrierState with
    | none => exact h
    | some l =>
      refine ⟨h.1, h.2.1, ?_⟩
      intro br hbr
      exact h.2.2 br (removeFirstBarrier_mem hrm br hbr)

theorem boardInv_fresh : BoardInv freshBoard := by
  refine ⟨?_, ?_, ?_⟩
  · intro t ht
    have ht2 : initPegState t ≠ none := ht
    rw [initPegState_apply] at ht2
    by_cases hg : InGrid t
    · exact hg
    · rw [if_neg hg] at ht2
      exact absurd rfl ht2
  · intro br hbr
    simp [freshBoard] at hbr
  · intro br hbr
    simp [freshBoard] at hbr

/-- Every reachable board satisfies the full invariant. -/
theorem reachable_boardInv {b : Board} (h : Reachable b) : BoardInv b := by
  induction h with
  | fresh => exact boardInv_fresh
  | placePeg b p c _ ih => exact boardInv_placePeg b p c ih
  | placeBarrier b p q c _ ih => exact boardInv_placeBarrier b p q c ih
  | removePeg b p c _ ih => exact boardInv_removePeg b p c ih
  | removeBarrier b p q c _ ih => exact boardInv_removeBarrier b p q c ih

/-! ## Win detection: the connectivity traversal of `gameWon`

The source keeps a stack of stringified pegs (`queue.push` appends,
`queue.pop` removes from the end) and a visited list `connectedPegs`.
Stringified pegs are modeled by the integer pairs themselves (the string
format is injective and `_destringifyPegTuple` inverts it). -/

/-- The adjacent pegs of a traversal node, as tuples: the loop body
`new Peg(...destringify(pegStr))`, `getAdjacentPegs`,
`stringify(adjacentPeg.asTuple)`. -/
def adjTuples (b : Board) (t : Int × Int) : List (Int × Int) :=
  (b.getAdjacentPegs ⟨t.1, t.2⟩).map Peg.asTuple

/-- All barrier endpoints of the board, as tuples.  Every peg the traversal
can ever push is a seed or one of these; the list only feeds the
termination measure of `connectLoop`. -/
def allEndpoints (b : Board) : List (Int × Int) :=
  (b.redBarrierState ++ b.blackBarrierState).flatMap (fun br => [br.1.asTuple, br.2.asTuple])

theorem adjCollect_mem {peg q : Peg} {lst : List (Peg × Peg)} :
    q ∈ adjCollect peg lst ↔
      ∃ br ∈ lst, (peg = br.1 ∧ q = br.2) ∨ (peg = br.2 ∧ q = br.1) := by
  induction lst with
  | nil => simp [adjCollect]
  | cons br rest ih =>
    rw [adjCollect]
    constructor
    · intro h
      rcases List.mem_append.1 h with h1 | h1
      · rcases List.mem_append.1 h1 with h2 | h2
        · cases he : peg.equals br.1 with
          | false =>
            simp only [he] at h2
            simp at h2
          | true =>
            simp only [he] at h2
            simp at h2
            subst h2
            exact ⟨br, List.mem_cons_self _ _, Or.inl ⟨(Peg.equals_iff _ _).1 he, rfl⟩⟩
        · cases he : peg.equals br.2 with
          | false =>
            simp only [he] at h2
            simp at h2
          | true =>
            simp only [he] at h2
            simp at h2
            subst h2
            exact ⟨br, List.mem_cons_self _ _, Or.inr ⟨(Peg.equals_iff _ _).1 he, rfl⟩⟩
      · obtain ⟨br2, hm, ho⟩ := ih.1 h1
        exact ⟨br2, List.mem_cons_of_mem _ hm, ho⟩
    · rintro ⟨br2, hm, ho⟩
      rcases List.mem_cons.1 hm with rfl | hm2
      · rcases ho with ⟨hp, hq⟩ | ⟨hp, hq⟩
        · subst hq
          refine List.mem_append.2 (Or.inl (List.mem_append.2 (Or.inl ?_)))
          simp only [(Peg.equals_iff _ _).2 hp]
          simp
        · subst hq
          refine List.mem_append.2 (Or.inl (List.mem_append.2 (Or.inr ?_)))
          simp only [(Peg.equals_iff _ _).2 hp]
          simp
      · exact List.mem_append.2 (Or.inr (ih.2 ⟨br2, hm2, ho⟩))

theorem adj_mem_allEndpoints (b : Board) (t u : Int × Int) (h : u ∈ adjTuples b t) :
    u ∈ allEndpoints b := by
  rw [adjTuples] at h
  rcases List.mem_map.1 h with ⟨q, hq, rfl⟩
  rw [Board.getAdjacentPegs] at hq
  cases hv : b.getPeg ((⟨t.1, t.2⟩ : Peg).asTuple) with
  | none =>
    rw [hv] at hq
    cases hq
  | some v =>
    rw [hv] at hq
    cases v with
    | R =>
      obtain ⟨br, hm, ho⟩ := adjCollect_mem.1 hq
      refine List.mem_flatMap.2 ⟨br, List.mem_append_left _ hm, ?_⟩
      rcases ho with ⟨_, rfl⟩ | ⟨_, rfl⟩ <;> simp
    | B =>
      obtain ⟨br, hm, ho⟩ := adjCollect_mem.1 hq
      refine List.mem_flatMap.2 ⟨br, List.mem_append_right _ hm, ?_⟩
      rcases ho with ⟨_, rfl⟩ | ⟨_, rfl⟩ <;> simp
    | X => cases hq

theorem queue_eq_dropLast_concat {queue : List (Int × Int)} {t : Int × Int}
    (h : queue.getLast? = some t) : queue = queue.dropLast ++ [t] :=
  (List.dropLast_append_getLast? t (Option.mem_def.2 h)).symm

theorem mem_of_getLast?_eq {queue : List (Int × Int)} {t : Int × Int}
    (h : queue.getLast? = some t) : t ∈ queue := by
  rw [queue_eq_dropLast_concat h]
  exact List.mem_append_right _ (List.mem_singleton_self t)

theorem length_filter_mono_pred {α : Type} (p q : α → Bool)
    (h : ∀ x, p x = true → q x = true) (l : List α) :
    (l.filter p).length ≤ (l.filter q).length := by
  induction l with
  | nil => simp
  | cons a l ih =>
    rw [List.filter_cons, List.filter_cons]
    cases hp : p a with
    | true =>
      rw [h a hp]
      simpa using ih
    | false =>
      cases hq : q a with
      | true => simpa using Nat.le_succ_of_le ih
      | false => simpa using ih

theorem length_filter_visit_lt (l connected : List (Int × Int)) (t : Int × Int)
    (ht : t ∈ l) (hn : t ∉ connected) :
    (l.filter (fun x => !decide (x ∈ connected ++ [t]))).length
      < (l.filter (fun x => !decide (x ∈ connected))).length := by
  induction l with
  | nil => cases ht
  | cons a l ih =>
    rw [List.filter_cons, List.filter_cons]
    by_cases hat : a = t
    · subst hat
      have hp : (!decide (a ∈ connected ++ [a])) = false := by simp
      have hq : (!decide (a ∈ connected)) = true := by simp [hn]
      rw [hp, hq]
      simp only [Bool.false_eq_true, if_false, if_true]
      have hm := length_filter_mono_pred (fun x => !decide (x ∈ connected ++ [a]))
        (fun x => !decide (x ∈ connected)) ?_ l
      · simpa using Nat.lt_succ_of_le hm
      · intro x hx
        simp only [Bool.not_eq_true', decide_eq_false_iff_not] at hx ⊢
        intro hmem
        exact hx (List.mem_append_left _ hmem)
    · have ht2 : t ∈ l := by
        rcases List.mem_cons.1 ht with h1 | h1
        · exact absurd h1.symm hat
        · exact h1
      cases hq : (!decide (a ∈ connected)) with
      | true =>
        have hp : (!decide (a ∈ connected ++ [t])) = true := by
          simp only [Bool.not_eq_true', decide_eq_false_iff_not] at hq ⊢
          intro hmem
          rcases List.mem_append.1 hmem with h1 | h1
          · exact hq h1
          · exact hat (List.mem_singleton.1 h1)
        rw [hp]
        simpa using Nat.succ_lt_succ (ih ht2)
      | false =>
        have hp : (!decide (a ∈ connected ++ [t])) = false := by
          simp only [Bool.not_eq_false', decide_eq_true_eq] at hq ⊢
          exact List.mem_append_left _ hq
        rw [hp]
        simpa using ih ht2

/-- The `while (queue.length)` traversal of `gameWon`: pop the last element
of the stack; if already visited, continue; otherwise mark it visited and
push all its barrier-adjacent pegs.  `cands` is an over-approximation of
everything that can ever be pushed (it exists only to justify termination
and does not influence the result). -/
def connectLoop (b : Board) (cands : List (Int × Int))
    (hc : ∀ t u, u ∈ adjTuples b t → u ∈ cands)
    (queue : List (Int × Int)) (hq : ∀ t ∈ queue, t ∈ cands)
    (connected : List (Int × Int)) : List (Int × Int) :=
  match hql : queue.getLast? with
  | none => connected
  | some t =>
    if ht : t ∈ connected then
      connectLoop b cands hc queue.dropLast
        (fun u hu => hq u (by rw [queue_eq_dropLast_concat hql]; exact List.mem_append_left _ hu))
        connected
    else
      connectLoop b cands hc (queue.dropLast ++ adjTuples b t)
        (fun u hu => by
          rcases List.mem_append.1 hu with h1 | h1
          · exact hq u (by rw [queue_eq_dropLast_concat hql]; exact List.mem_append_left _ h1)
          · exact hc t u h1)
        (connected ++ [t])
termination_by ((cands.filter (fun x => !decide (x ∈ connected))).length, queue.length)
decreasing_by
  · apply Prod.Lex.right
    have hne : queue ≠ [] := by
      intro h
      rw [h] at hql
      cases hql
    rw [List.length_dropLast]
    have := List.length_pos.2 hne
    omega
  · apply Prod.Lex.left
    exact length_filter_visit_lt cands connected t (hq t (mem_of_getLast?_eq hql)) ht

/-- The seed scan of `gameWon`: the pegs of the player's first home line
(`[i,1]` for red, `[1,i]` for black, `i = 1..24`) currently holding the
player's peg, in scan order.  For `Player.X` neither branch of the source
fires and the queue stays empty. -/
def Board.seeds (b : Board) (player : Player) : List (Int × Int) :=
  match player with
  | Player.R =>
    ((List.range 24).map (fun (i : ℕ) => ((i : Int) + 1, (1 : Int)))).filter
      (fun t => decide (b.getPeg t = some Player.R))
  | Player.B =>
    ((List.range 24).map (fun (i : ℕ) => ((1 : Int), (i : Int) + 1))).filter
      (fun t => decide (b.getPeg t = some Player.B))
  | Player.X => []

/-- `gameWon(player)` of the source: seed the stack with the first home
line, run the traversal, then report whether some visited peg lies in the
player's opposite home line (`y = 24` for red, `x = 24` for black; for
`Player.X` neither branch fires and the scan returns false). -/
def Board.gameWon (b : Board) (player : Player) : Bool :=
  (connectLoop b (b.seeds player ++ allEndpoints b)
      (fun t u hu => List.mem_append_right _ (adj_mem_allEndpoints b t u hu))
      (b.seeds player)
      (fun t ht => List.mem_append_left _ ht)
      []).any
    (fun t =>
      match player with
      | Player.R => decide (t.2 = 24)
      | Player.B => decide (t.1 = 24)
      | Player.X => false)

/-! ## Characterization of the traversal -/

theorem connectLoop_eq_none (b : Board) (cands : List (Int × Int))
    (hc : ∀ t u, u ∈ adjTuples b t → u ∈ cands)
    {queue : List (Int × Int)} (hq : ∀ t ∈ queue, t ∈ cands)
    (connected : List (Int × Int)) (hql : queue.getLast? = none) :
    connectLoop b cands hc queue hq connected = connected := by
  rw [connectLoop.eq_def]
  split
  · rfl
  · next t heq =>
    rw [hql] at heq
    cases heq

theorem connectLoop_eq_visited (b : Board) (cands : List (Int × Int))
    (hc : ∀ t u, u ∈ adjTuples b t → u ∈ cands)
    {queue : List (Int × Int)} {t : Int × Int} (hq : ∀ u ∈ queue, u ∈ cands)
    {connected : List (Int × Int)} (hql : queue.getLast? = some t) (ht : t ∈ connected)
    (hq2 : ∀ u ∈ queue.dropLast, u ∈ cands) :
    connectLoop b cands hc queue hq connected
      = connectLoop b cands hc queue.dropLast hq2 connected := by
  rw [connectLoop.eq_def]
  split
  · next heq =>
    rw [hql] at heq
    cases heq
  · next t2 heq =>
    rw [hql] at heq
    injection heq with h
    subst h
    rw [dif_pos ht]

theorem connectLoop_eq_new (b : Board) (cands : List (Int × Int))
    (hc : ∀ t u, u ∈ adjTuples b t → u ∈ cands)
    {queue : List (Int × Int)} {t : Int × Int} (hq : ∀ u ∈ queue, u ∈ cands)
    {connected : List (Int × Int)} (hql : queue.getLast? = some t) (ht : t ∉ connected)
    (hq2 : ∀ u ∈ queue.dropLast ++ adjTuples b t, u ∈ cands) :
    connectLoop b cands hc queue hq connected
      = connectLoop b cands hc (queue.dropLast ++ adjTuples b t) hq2 (connected ++ [t]) := by
  rw [connectLoop.eq_def]
  split
  · next heq =>
    rw [hql] at heq
    cases heq
  · next t2 heq =>
    rw [hql] at heq
    injection heq with h
    subst h
    rw [dif_neg ht]

theorem connectLoop_sound (b : Board) (cands : List (Int × Int))
    (hc : ∀ t u, u ∈ adjTuples b t → u ∈ cands) (P : (Int × Int) → Prop)
    (hP : ∀ t u, P t → u ∈ adjTuples b t → P u) :
    ∀ (queue : List (Int × Int)) (hq : ∀ t ∈ queue, t ∈ cands)
      (connected : List (Int × Int)), (∀ t ∈ queue, P t) → (∀ t ∈ connected, P t) →
      ∀ x ∈ connectLoop b cands hc queue hq connected, P x := by
  intro queue hq connected
  induction queue, hq, connected using connectLoop.induct b cands hc with
  | case1 queue hq connected hql =>
    intro _ hC
    rw [connectLoop_eq_none b cands hc hq connected hql]
    exact hC
  | case2 queue hq connected t hql ht ih =>
    intro hQ hC
    rw [connectLoop_eq_visited b cands hc hq hql ht
      (fun u hu => hq u (List.mem_of_mem_dropLast hu))]
    exact ih (fun u hu => hQ u (List.mem_of_mem_dropLast hu)) hC
  | case3 queue hq connected t hql ht ih =>
    intro hQ hC
    rw [connectLoop_eq_new b cands hc hq hql ht
      (fun u hu => (List.mem_append.1 hu).elim
        (fun h1 => hq u (List.mem_of_mem_dropLast h1))
        (fun h1 => hc t u h1))]
    apply ih
    · intro u hu
      rcases List.mem_append.1 hu with h1 | h1
      · exact hQ u (List.mem_of_mem_dropLast h1)
      · exact hP t u (hQ t (mem_of_getLast?_eq hql)) h1
    · intro u hu
      rcases List.mem_append.1 hu with h1 | h1
      · exact hC u h1
      · rw [List.mem_singleton] at h1
        subst h1
        exact hQ u (mem_of_getLast?_eq hql)

theorem connectLoop_subset (b : Board) (cands : List (Int × Int))
    (hc : ∀ t u, u ∈ adjTuples b t → u ∈ cands) :
    ∀ (queue : List (Int × Int)) (hq : ∀ t ∈ queue, t ∈ cands)
      (connected : List (Int × Int)) (x : Int × Int), x ∈ queue ∨ x ∈ connected →
      x ∈ connectLoop b cands hc queue hq connected := by
  intro queue hq connected
  induction queue, hq, connected using connectLoop.induct b cands hc with
  | case1 queue hq connected hql =>
    intro x hx
    rw [connectLoop_eq_none b cands hc hq connected hql]
    rcases hx with hx | hx
    · rw [List.getLast?_eq_none_iff] at hql
      subst hql
      cases hx
    · exact hx
  | case2 queue hq connected t hql ht ih =>
    intro x hx
    rw [connectLoop_eq_visited b cands hc hq hql ht
      (fun u hu => hq u (List.mem_of_mem_dropLast hu))]
    apply ih
    rcases hx with hx | hx
    · rw [queue_eq_dropLast_concat hql] at hx
      rcases List.mem_append.1 hx with h1 | h1
      · exact Or.inl h1
      · rw [List.mem_singleton] at h1
        subst h1
        exact Or.inr ht
    · exact Or.inr hx
  | case3 queue hq connected t hql ht ih =>
    intro x hx
    rw [connectLoop_eq_new b cands hc hq hql ht
      (fun u hu => (List.mem_append.1 hu).elim
        (fun h1 => hq u (List.mem_of_mem_dropLast h1))
        (fun h1 => hc t u h1))]
    apply ih
    rcases hx with hx | hx
    · rw [queue_eq_dropLast_concat hql] at hx
      rcases List.mem_append.1 hx with h1 | h1
      · exact Or.inl (List.mem_append_left _ h1)
      · rw [List.mem_singleton] at h1
        subst h1
        exact Or.inr (List.mem_append_right _ (List.mem_singleton_self x))
    · exact Or.inr (List.mem_append_left _ hx)

theorem connectLoop_closed (b : Board) (cands : List (Int × Int))
    (hc : ∀ t u, u ∈ adjTuples b t → u ∈ cands) :
    ∀ (queue : List (Int × Int)) (hq : ∀ t ∈ queue, t ∈ cands)
      (connected : List (Int × Int)),
      (∀ x ∈ connected, ∀ u ∈ adjTuples b x, u ∈ connected ∨ u ∈ queue) →
      ∀ x ∈ connectLoop b cands hc queue hq connected, ∀ u ∈ adjTuples b x,
        u ∈ connectLoop b cands hc queue hq connected := by
  intro queue hq connected
  induction queue, hq, connected using connectLoop.induct b cands hc with
  | case1 queue hq connected hql =>
    intro hinv x hx u hu
    rw [connectLoop_eq_none b cands hc hq connected hql] at hx ⊢
    rcases hinv x hx u hu with h1 | h1
    · exact h1
    · rw [List.getLast?_eq_none_iff] at hql
      subst hql
      cases h1
  | case2 queue hq connected t hql ht ih =>
    intro hinv
    rw [connectLoop_eq_visited b cands hc hq hql ht
      (fun u hu => hq u (List.mem_of_mem_dropLast hu))]
    apply ih
    intro x hx u hu
    rcases hinv x hx u hu with h1 | h1
    · exact Or.inl h1
    · rw [queue_eq_dropLast_concat hql] at h1
      rcases List.mem_append.1 h1 with h2 | h2
      · exact Or.inr h2
      · rw [List.mem_singleton] at h2
        subst h2
        exact Or.inl ht
  | case3 queue hq connected t hql ht ih =>
    intro hinv
    rw [connectLoop_eq_new b cands hc hq hql ht
      (fun u hu => (List.mem_append.1 hu).elim
        (fun h1 => hq u (List.mem_of_mem_dropLast h1))
        (fun h1 => hc t u h1))]
    apply ih
    intro x hx u hu
    rcases List.mem_append.1 hx with hx2 | hx2
    · rcases hinv x hx2 u hu with h1 | h1
      · exact Or.inl (List.mem_append_left _ h1)
      · rw [queue_eq_dropLast_concat hql] at h1
        rcases List.mem_append.1 h1 with h2 | h2
        · exact Or.inr (List.mem_append_left _ h2)
        · rw [List.mem_singleton] at h2
          subst h2
          exact Or.inl (List.mem_append_right _ (List.mem_singleton_self u))
    · rw [List.mem_singleton] at hx2
      subst hx2
      exact Or.inr (List.mem_append_right _ hu)

/-- Reachability along barrier adjacency from a seed list: the set the
traversal of `gameWon` computes. -/
inductive Conn (b : Board) (seeds : List (Int × Int)) : (Int × Int) → Prop where
  | seed : ∀ t, t ∈ seeds → Conn b seeds t
  | step : ∀ t u, Conn b seeds t → u ∈ adjTuples b t → Conn b seeds u

theorem connectLoop_spec (b : Board) (cands : List (Int × Int))
    (hc : ∀ t u, u ∈ adjTuples b t → u ∈ cands)
    (queue : List (Int × Int)) (hq : ∀ t ∈ queue, t ∈ cands) (x : Int × Int) :
    x ∈ connectLoop b cands hc queue hq [] ↔ Conn b queue x := by
  constructor
  · intro hx
    exact connectLoop_sound b cands hc (Conn b queue)
      (fun t u h1 h2 => Conn.step t u h1 h2) queue hq []
      (fun t htq => Conn.seed t htq) (fun t htc => absurd htc (List.not_mem_nil t)) x hx
  · intro hx
    induction hx with
    | seed t htq => exact connectLoop_subset b cands hc queue hq [] t (Or.inl htq)
    | step t u _ hadj ih =>
      exact connectLoop_closed b cands hc queue hq []
        (fun z hz => absurd hz (List.not_mem_nil z)) t ih u hadj

theorem gameWon_R_iff (b : Board) :
    b.gameWon Player.R = true ↔ ∃ t, Conn b (b.seeds Player.R) t ∧ t.2 = 24 := by
  rw [Board.gameWon, List.any_eq_true]
  constructor
  · rintro ⟨t, hmem, hp⟩
    refine ⟨t, (connectLoop_spec _ _ _ _ _ t).1 hmem, ?_⟩
    simpa using hp
  · rintro ⟨t, hconn, h24⟩
    refine ⟨t, (connectLoop_spec _ _ _ _ _ t).2 hconn, ?_⟩
    simpa using h24

theorem gameWon_B_iff (b : Board) :
    b.gameWon Player.B = true ↔ ∃ t, Conn b (b.seeds Player.B) t ∧ t.1 = 24 := by
  rw [Board.gameWon, List.any_eq_true]
  constructor
  · rintro ⟨t, hmem, hp⟩
    refine ⟨t, (connectLoop_spec _ _ _ _ _ t).1 hmem, ?_⟩
    simpa using hp
  · rintro ⟨t, hconn, h24⟩
    refine ⟨t, (connectLoop_spec _ _ _ _ _ t).2 hconn, ?_⟩
    simpa using h24

theorem seeds_R_mem (b : Board) (t : Int × Int) :
    t ∈ b.seeds Player.R ↔
      b.getPeg t = some Player.R ∧ t.2 = 1 ∧ 1 ≤ t.1 ∧ t.1 ≤ 24 := by
  rw [Board.seeds, List.mem_filter]
  constructor
  · rintro ⟨hm, hp⟩
    rcases List.mem_map.1 hm with ⟨i, hi, rfl⟩
    rw [List.mem_range] at hi
    refine ⟨by simpa using hp, rfl, by omega, by omega⟩
  · rintro ⟨hp, h2, hb1, hb2⟩
    refine ⟨List.mem_map.2 ⟨(t.1 - 1).toNat, ?_, ?_⟩, by simpa using hp⟩
    · rw [List.mem_range]
      omega
    · have he : ((t.1 - 1).toNat : Int) + 1 = t.1 := by omega
      rw [he, ← h2]

theorem seeds_B_mem (b : Board) (t : Int × Int) :
    t ∈ b.seeds Player.B ↔
      b.getPeg t = some Player.B ∧ t.1 = 1 ∧ 1 ≤ t.2 ∧ t.2 ≤ 24 := by
  rw [Board.seeds, List.mem_filter]
  constructor
  · rintro ⟨hm, hp⟩
    rcases List.mem_map.1 hm with ⟨i, hi, rfl⟩
    rw [List.mem_range] at hi
    refine ⟨by simpa using hp, rfl, by omega, by omega⟩
  · rintro ⟨hp, h2, hb1, hb2⟩
    refine ⟨List.mem_map.2 ⟨(t.2 - 1).toNat, ?_, ?_⟩, by simpa using hp⟩
    · rw [List.mem_range]
      omega
    · have he : ((t.2 - 1).toNat : Int) + 1 = t.2 := by omega
      rw [he, ← h2]

theorem getAdjacentPegs_of_R {b : Board} {peg : Peg} (h : b.getPeg peg.asTuple = some Player.R) :
    b.getAdjacentPegs peg = adjCollect peg b.redBarrierState := by
  rw [Board.getAdjacentPegs, h]

theorem getAdjacentPegs_of_B {b : Board} {peg : Peg} (h : b.getPeg peg.asTuple = some Player.B) :
    b.getAdjacentPegs peg = adjCollect peg b.blackBarrierState := by
  rw [Board.getAdjacentPegs, h]

/-! ## The claim-side formulation of a winning path -/

/-- Two pegs are joined by a barrier of the given collection (in either
endpoint order). -/
def barrierJoins (lst : List (Peg × Peg)) (p q : Peg) : Prop :=
  ∃ br ∈ lst, (br.1 = p ∧ br.2 = q) ∨ (br.1 = q ∧ br.2 = p)

/-- A sequence `p0, ..., pk` of pegs all holding the player's color, whose
first element lies on the player's near home line and whose last element
lies on the far home line, with each consecutive pair joined by a barrier
of the given collection. -/
def WinningPath (b : Board) (c : Player) (lst : List (Peg × Peg))
    (startLine finishLine : Peg → Prop) : Prop :=
  ∃ (p0 : Peg) (ps : List Peg),
    (∀ p ∈ p0 :: ps, b.getPeg p.asTuple = some c) ∧ startLine p0 ∧
      finishLine ((p0 :: ps).getLast (List.cons_ne_nil p0 ps)) ∧
      List.Chain' (barrierJoins lst) (p0 :: ps)

theorem conn_to_path_R (b : Board) (hb : BoardInv b) :
    ∀ t, Conn b (b.seeds Player.R) t →
      b.getPeg t = some Player.R ∧
        ∃ (p0 : Peg) (ps : List Peg),
          (∀ p ∈ p0 :: ps, b.getPeg p.asTuple = some Player.R) ∧ p0.y = 1 ∧
            (p0 :: ps).getLast (List.cons_ne_nil p0 ps) = (⟨t.1, t.2⟩ : Peg) ∧
            List.Chain' (barrierJoins b.redBarrierState) (p0 :: ps) := by
  intro t hconn
  induction hconn with
  | seed t ht =>
    obtain ⟨hp, h2, _, _⟩ := (seeds_R_mem b t).1 ht
    refine ⟨hp, ⟨t.1, t.2⟩, [], ?_, h2, rfl, List.chain'_singleton _⟩
    intro p hp2
    rw [List.mem_singleton] at hp2
    subst hp2
    exact hp
  | step t u hc2 hadj ih =>
    obtain ⟨hpt, p0, ps, hall, h1, hlast, hchain⟩ := ih
    rw [adjTuples] at hadj
    rcases List.mem_map.1 hadj with ⟨q, hq, rfl⟩
    rw [getAdjacentPegs_of_R hpt] at hq
    obtain ⟨br, hbr, ho⟩ := adjCollect_mem.1 hq
    obtain ⟨hd5, hbr1, hbr2⟩ := hb.2.1 br hbr
    have hqR : b.getPeg q.asTuple = some Player.R := by
      rcases ho with ⟨hp1, rfl⟩ | ⟨hp1, rfl⟩
      · exact hbr2
      · exact hbr1
    refine ⟨hqR, p0, ps ++ [q], ?_, h1, ?_, ?_⟩
    · intro p hp2
      rw [show p0 :: (ps ++ [q]) = (p0 :: ps) ++ [q] from rfl, List.mem_append] at hp2
      rcases hp2 with hp3 | hp3
      · exact hall p hp3
      · rw [List.mem_singleton] at hp3
        subst hp3
        exact hqR
    · exact List.getLast_append_singleton (p0 :: ps)
    · rw [show p0 :: (ps ++ [q]) = (p0 :: ps) ++ [q] from rfl, List.chain'_append]
      refine ⟨hchain, List.chain'_singleton _, ?_⟩
      intro x hx y hy
      rw [List.getLast?_eq_getLast_of_ne_nil (List.cons_ne_nil p0 ps)] at hx
      rw [Option.mem_def] at hx
      injection hx with hx2
      subst hx2
      rw [show ([q] : List Peg).head? = some q from rfl] at hy
      rw [Option.mem_def] at hy
      injection hy with hy2
      subst hy2
      rw [hlast]
      rcases ho with ⟨hp1, hq2⟩ | ⟨hp1, hq2⟩
      · exact ⟨br, hbr, Or.inl ⟨hp1.symm, hq2.symm⟩⟩
      · exact ⟨br, hbr, Or.inr ⟨hq2.symm, hp1.symm⟩⟩

theorem conn_to_path_B (b : Board) (hb : BoardInv b) :
    ∀ t, Conn b (b.seeds Player.B) t →
      b.getPeg t = some Player.B ∧
        ∃ (p0 : Peg) (ps : List Peg),
          (∀ p ∈ p0 :: ps, b.getPeg p.asTuple = some Player.B) ∧ p0.x = 1 ∧
            (p0 :: ps).getLast (List.cons_ne_nil p0 ps) = (⟨t.1, t.2⟩ : Peg) ∧
            List.Chain' (barrierJoins b.blackBarrierState) (p0 :: ps) := by
  intro t hconn
  induction hconn with
  | seed t ht =>
    obtain ⟨hp, h2, _, _⟩ := (seeds_B_mem b t).1 ht
    refine ⟨hp, ⟨t.1, t.2⟩, [], ?_, h2, rfl, List.chain'_singleton _⟩
    intro p hp2
    rw [List.mem_singleton] at hp2
    subst hp2
    exact hp
  | step t u hc2 hadj ih =>
    obtain ⟨hpt, p0, ps, hall, h1, hlast, hchain⟩ := ih
    rw [adjTuples] at hadj
    rcases List.mem_map.1 hadj with ⟨q, hq, rfl⟩
    rw [getAdjacentPegs_of_B hpt] at hq
    obtain ⟨br, hbr, ho⟩ := adjCollect_mem.1 hq
    obtain ⟨hd5, hbr1, hbr2⟩ := hb.2.2 br hbr
    have hqB : b.getPeg q.asTuple = some Player.B := by
      rcases ho with ⟨hp1, rfl⟩ | ⟨hp1, rfl⟩
      · exact hbr2
      · exact hbr1
    refine ⟨hqB, p0, ps ++ [q], ?_, h1, ?_, ?_⟩
    · intro p hp2
      rw [show p0 :: (ps ++ [q]) = (p0 :: ps) ++ [q] from rfl, List.mem_append] at hp2
      rcases hp2 with hp3 | hp3
      · exact hall p hp3
      · rw [List.mem_singleton] at hp3
        subst hp3
        exact hqB
    · exact List.getLast_append_singleton (p0 :: ps)
    · rw [show p0 :: (ps ++ [q]) = (p0 :: ps) ++ [q] from rfl, List.chain'_append]
      refine ⟨hchain, List.chain'_singleton _, ?_⟩
      intro x hx y hy
      rw [List.getLast?_eq_getLast_of_ne_nil (List.cons_ne_nil p0 ps)] at hx
      rw [Option.mem_def] at hx
      injection hx with hx2
      subst hx2
      rw [show ([q] : List Peg).head? = some q from rfl] at hy
      rw [Option.mem_def] at hy
      injection hy with hy2
      subst hy2
      rw [hlast]
      rcases ho with ⟨hp1, hq2⟩ | ⟨hp1, hq2⟩
      · exact ⟨br, hbr, Or.inl ⟨hp1.symm, hq2.symm⟩⟩
      · exact ⟨br, hbr, Or.inr ⟨hq2.symm, hp1.symm⟩⟩

theorem chain_conn_R (b : Board) (sds : List (Int × Int)) :
    ∀ (ps : List Peg) (p0 : Peg),
      (∀ p ∈ p0 :: ps, b.getPeg p.asTuple = some Player.R) →
      Conn b sds p0.asTuple →
      List.Chain' (barrierJoins b.redBarrierState) (p0 :: ps) →
      Conn b sds (((p0 :: ps).getLast (List.cons_ne_nil p0 ps)).asTuple) := by
  intro ps
  induction ps with
  | nil =>
    intro p0 _ hconn _
    exact hconn
  | cons p1 ps ih =>
    intro p0 hall hconn hchain
    obtain ⟨hjoin, hchain2⟩ := List.chain'_cons.1 hchain
    have hadj : p1.asTuple ∈ adjTuples b p0.asTuple := by
      rw [adjTuples]
      refine List.mem_map.2 ⟨p1, ?_, rfl⟩
      have hp0 : b.getPeg ((⟨(p0.asTuple).1, (p0.asTuple).2⟩ : Peg).asTuple) = some Player.R :=
        hall p0 (List.mem_cons_self p0 _)
      rw [getAdjacentPegs_of_R hp0]
      obtain ⟨br, hbr, ho⟩ := hjoin
      refine adjCollect_mem.2 ⟨br, hbr, ?_⟩
      rcases ho with ⟨he1, he2⟩ | ⟨he1, he2⟩
      · exact Or.inl ⟨he1.symm, he2.symm⟩
      · exact Or.inr ⟨he2.symm, he1.symm⟩
    have hconn1 : Conn b sds p1.asTuple := Conn.step p0.asTuple p1.asTuple hconn hadj
    rw [List.getLast_cons_cons]
    exact ih p1 (fun p hp => hall p (List.mem_cons_of_mem _ hp)) hconn1 hchain2

theorem chain_conn_B (b : Board) (sds : List (Int × Int)) :
    ∀ (ps : List Peg) (p0 : Peg),
      (∀ p ∈ p0 :: ps, b.getPeg p.asTuple = some Player.B) →
      Conn b sds p0.asTuple →
      List.Chain' (barrierJoins b.blackBarrierState) (p0 :: ps) →
      Conn b sds (((p0 :: ps).getLast (List.cons_ne_nil p0 ps)).asTuple) := by
  intro ps
  induction ps with
  | nil =>
    intro p0 _ hconn _
    exact hconn
  | cons p1 ps ih =>
    intro p0 hall hconn hchain
    obtain ⟨hjoin, hchain2⟩ := List.chain'_cons.1 hchain
    have hadj : p1.asTuple ∈ adjTuples b p0.asTuple := by
      rw [adjTuples]
      refine List.mem_map.2 ⟨p1, ?_, rfl⟩
      have hp0 : b.getPeg ((⟨(p0.asTuple).1, (p0.asTuple).2⟩ : Peg).asTuple) = some Player.B :=
        hall p0 (List.mem_cons_self p0 _)
      rw [getAdjacentPegs_of_B hp0]
      obtain ⟨br, hbr, ho⟩ := hjoin
      refine adjCollect_mem.2 ⟨br, hbr, ?_⟩
      rcases ho with ⟨he1, he2⟩ | ⟨he1, he2⟩
      · exact Or.inl ⟨he1.symm, he2.symm⟩
      · exact Or.inr ⟨he2.symm, he1.symm⟩
    have hconn1 : Conn b sds p1.asTuple := Conn.step p0.asTuple p1.asTuple hconn hadj
    rw [List.getLast_cons_cons]
    exact ih p1 (fun p hp => hall p (List.mem_cons_of_mem _ hp)) hconn1 hchain2

theorem gameWon_R_iff_path (b : Board) (hb : BoardInv b) :
    b.gameWon Player.R = true ↔
      WinningPath b Player.R b.redBarrierState (fun p => p.y = 1) (fun p => p.y = 24) := by
  rw [gameWon_R_iff]
  constructor
  · rintro ⟨t, hconn, h24⟩
    obtain ⟨_, p0, ps, hall, h1, hlast, hchain⟩ := conn_to_path_R b hb t hconn
    refine ⟨p0, ps, hall, h1, ?_, hchain⟩
    rw [hlast]
    exact h24
  · rintro ⟨p0, ps, hall, h1, hfin, hchain⟩
    set pk := (p0 :: ps).getLast (List.cons_ne_nil p0 ps) with hpk
    refine ⟨pk.asTuple, ?_, hfin⟩
    have hseed : Conn b (b.seeds Player.R) p0.asTuple := by
      apply Conn.seed
      rw [seeds_R_mem]
      have hp0 := hall p0 (List.mem_cons_self p0 _)
      have hgrid : InGrid p0.asTuple := by
        apply hb.1
        rw [← Board.getPeg_eq, hp0]
        simp
      exact ⟨hp0, h1, hgrid.1.1, hgrid.1.2⟩
    exact chain_conn_R b (b.seeds Player.R) ps p0 hall hseed hchain

theorem gameWon_B_iff_path (b : Board) (hb : BoardInv b) :
    b.gameWon Player.B = true ↔
      WinningPath b Player.B b.blackBarrierState (fun p => p.x = 1) (fun p => p.x = 24) := by
  rw [gameWon_B_iff]
  constructor
  · rintro ⟨t, hconn, h24⟩
    obtain ⟨_, p0, ps, hall, h1, hlast, hchain⟩ := conn_to_path_B b hb t hconn
    refine ⟨p0, ps, hall, h1, ?_, hchain⟩
    rw [hlast]
    exact h24
  · rintro ⟨p0, ps, hall, h1, hfin, hchain⟩
    set pk := (p0 :: ps).getLast (List.cons_ne_nil p0 ps) with hpk
    refine ⟨pk.asTuple, ?_, hfin⟩
    have hseed : Conn b (b.seeds Player.B) p0.asTuple := by
      apply Conn.seed
      rw [seeds_B_mem]
      have hp0 := hall p0 (List.mem_cons_self p0 _)
      have hgrid : InGrid p0.asTuple := by
        apply hb.1
        rw [← Board.getPeg_eq, hp0]
        simp
      exact ⟨hp0, h1, hgrid.2.1, hgrid.2.2⟩
    exact chain_conn_B b (b.seeds Player.B) ps p0 hall hseed hchain

/-! ## The specification wording of the intersection test (for C2) -/

/-- Slope of the line through two pegs, `rise / run` (the spec's slope of a
barrier). -/
def segSlope (p q : Peg) : ℚ := ((q.y : ℚ) - (p.y : ℚ)) / ((q.x : ℚ) - (p.x : ℚ))

/-- A value lies strictly between two endpoint coordinates (in either
order). -/
def StrictlyBetween (v e1 e2 : ℚ) : Prop := (e1 < v ∧ v < e2) ∨ (e2 < v ∧ v < e1)

/-- The x coordinate of the intersection point of the two infinite lines
through `A, B` and through `P, Q`. -/
def lineIntersectX (A B P Q : Peg) : ℚ :=
  ((A.x : ℚ) * segSlope A B - (P.x : ℚ) * segSlope P Q + (P.y : ℚ) - (A.y : ℚ)) /
    (segSlope A B - segSlope P Q)

/-- The y coordinate of that intersection point. -/
def lineIntersectY (A B P Q : Peg) : ℚ :=
  segSlope A B * (lineIntersectX A B P Q - (A.x : ℚ)) + (A.y : ℚ)

/-- The spec's wording of when an existing barrier `(P, Q)` makes the
proposal `(A, B)` illegal: same slope and an exact endpoint match in either
order, or different slope and the intersection point of the two infinite
lines strictly between both segments' endpoint coordinates on both axes. -/
def SpecRejects (A B P Q : Peg) : Prop :=
  (segSlope A B = segSlope P Q ∧ ((A = P ∧ B = Q) ∨ (A = Q ∧ B = P))) ∨
  (segSlope A B ≠ segSlope P Q ∧
    StrictlyBetween (lineIntersectX A B P Q) (A.x : ℚ) (B.x : ℚ) ∧
    StrictlyBetween (lineIntersectX A B P Q) (P.x : ℚ) (Q.x : ℚ) ∧
    StrictlyBetween (lineIntersectY A B P Q) (A.y : ℚ) (B.y : ℚ) ∧
    StrictlyBetween (lineIntersectY A B P Q) (P.y : ℚ) (Q.y : ℚ))

theorem between_iff (v e1 e2 : ℚ) : between v e1 e2 = true ↔ StrictlyBetween v e1 e2 := by
  rw [between, StrictlyBetween]
  simp only [Bool.or_eq_true, Bool.and_eq_true, decide_eq_true_eq, gt_iff_lt]
  tauto

theorem barrierConflict_iff_specRejects (A B P Q : Peg) :
    barrierConflict A B P Q = true ↔ SpecRejects A B P Q := by
  rw [barrierConflict, SpecRejects]
  by_cases hm : segSlope A B = segSlope P Q
  · rw [if_pos (by exact hm)]
    simp only [Bool.or_eq_true, Bool.and_eq_true, Peg.equals_iff]
    constructor
    · intro h
      exact Or.inl ⟨hm, h⟩
    · rintro (⟨_, h⟩ | ⟨hne, _⟩)
      · exact h
      · exact absurd hm hne
  · rw [if_neg (by exact hm)]
    simp only [Bool.and_eq_true, between_iff]
    constructor
    · rintro ⟨⟨⟨h1, h2⟩, h3⟩, h4⟩
      exact Or.inr ⟨hm, h1, h2, h3, h4⟩
    · rintro (⟨he, _⟩ | ⟨_, h1, h2, h3, h4⟩)
      · exact absurd he hm
      · exact ⟨⟨⟨h1, h2⟩, h3⟩, h4⟩

/-! ## Concrete demonstration boards, built by the public operations -/

def demoRed1 : Board := (freshBoard.placePeg ⟨2, 2⟩ Player.R).2

def demoRed2 : Board := (demoRed1.placePeg ⟨3, 4⟩ Player.R).2

/-- Red pegs at (2,2) and (3,4) joined by the red barrier (2,2)-(3,4). -/
def demoRed3 : Board := (demoRed2.placeBarrier ⟨2, 2⟩ ⟨3, 4⟩ Player.R).2

/-- `demoRed3` plus a red peg at (5,3) (for a shared-endpoint barrier). -/
def demoShared : Board := (demoRed3.placePeg ⟨5, 3⟩ Player.R).2

/-- `demoRed3` plus red pegs at (4,6) and (5,8) (for a collinear distinct
barrier along the same line). -/
def demoColl : Board := ((demoRed3.placePeg ⟨4, 6⟩ Player.R).2.placePeg ⟨5, 8⟩ Player.R).2

/-- `demoRed3` plus red pegs at (2,4) and (4,3) (for a crossing barrier,
the spec's example). -/
def demoCross : Board := ((demoRed3.placePeg ⟨2, 4⟩ Player.R).2.placePeg ⟨4, 3⟩ Player.R).2

set_option maxRecDepth 40000

theorem reachable_demoRed2 : Reachable demoRed2 :=
  Reachable.placePeg demoRed1 ⟨3, 4⟩ Player.R
    (Reachable.placePeg freshBoard ⟨2, 2⟩ Player.R Reachable.fresh)

theorem reachable_demoRed3 : Reachable demoRed3 :=
  Reachable.placeBarrier demoRed2 ⟨2, 2⟩ ⟨3, 4⟩ Player.R reachable_demoRed2

theorem reachable_demoCross : Reachable demoCross :=
  Reachable.placePeg (demoRed3.placePeg ⟨2, 4⟩ Player.R).2 ⟨4, 3⟩ Player.R
    (Reachable.placePeg demoRed3 ⟨2, 4⟩ Player.R reachable_demoRed3)

/-! ## Claim theorems -/

/-- C1: on every board reachable from a fresh board by the public
operations, `gameWon(Red)` returns true iff there is a sequence of
red-occupied pegs `p0, ..., pk` with `p0.y = 1` and `pk.y = 24` whose
consecutive pairs are joined by barriers of the red collection;
symmetrically `gameWon(Black)` iff such a black path runs from `x = 1` to
`x = 24`. -/
theorem claim_C1_gameWon_iff_winning_path (b : Board) (h : Reachable b) :
    (b.gameWon Player.R = true ↔
      WinningPath b Player.R b.redBarrierState (fun p => p.y = 1) (fun p => p.y = 24)) ∧
    (b.gameWon Player.B = true ↔
      WinningPath b Player.B b.blackBarrierState (fun p => p.x = 1) (fun p => p.x = 24)) :=
  ⟨gameWon_R_iff_path b (reachable_boardInv h), gameWon_B_iff_path b (reachable_boardInv h)⟩

theorem claim_C1_witness :
    (demoRed3.gameWon Player.R = true ↔
      WinningPath demoRed3 Player.R demoRed3.redBarrierState
        (fun p => p.y = 1) (fun p => p.y = 24)) ∧
    (demoRed3.gameWon Player.B = true ↔
      WinningPath demoRed3 Player.B demoRed3.blackBarrierState
        (fun p => p.x = 1) (fun p => p.x = 24)) :=
  claim_C1_gameWon_iff_winning_path demoRed3 reachable_demoRed3

/-- The conjunction of the specified barrier invariants of both players. -/
def BarriersOk (b : Board) : Prop :=
  BarrInv b b.redBarrierState Player.R ∧ BarrInv b b.blackBarrierState Player.B

/-- C4: on every reachable board, every barrier of either player has
squared endpoint distance exactly 5 and both endpoints are cells currently
occupied by the owner's color; the invariant is preserved by `placePeg`,
`placeBarrier`, `removePeg` and `removeBarrier`. -/
theorem claim_C4_barrier_invariant (b : Board) (h : Reachable b) :
    BarriersOk b ∧
      (∀ p c, BarriersOk (b.placePeg p c).2) ∧
      (∀ p q c, BarriersOk (b.placeBarrier p q c).2) ∧
      (∀ p c, BarriersOk (b.removePeg p c).2) ∧
      (∀ p q c, BarriersOk (b.removeBarrier p q c).2) := by
  have hb := reachable_boardInv h
  refine ⟨⟨hb.2.1, hb.2.2⟩, ?_, ?_, ?_, ?_⟩
  · intro p c
    have h2 := boardInv_placePeg b p c hb
    exact ⟨h2.2.1, h2.2.2⟩
  · intro p q c
    have h2 := boardInv_placeBarrier b p q c hb
    exact ⟨h2.2.1, h2.2.2⟩
  · intro p c
    have h2 := boardInv_removePeg b p c hb
    exact ⟨h2.2.1, h2.2.2⟩
  · intro p q c
    have h2 := boardInv_removeBarrier b p q c hb
    exact ⟨h2.2.1, h2.2.2⟩

theorem claim_C4_witness : BarriersOk demoRed3 :=
  (claim_C4_barrier_invariant demoRed3 reachable_demoRed3).1

theorem placePeg_false_eq (b : Board) (p : Peg) (c : Player)
    (h : (b.placePeg p c).1 = false) : (b.placePeg p c).2 = b := by
  rw [Board.placePeg] at h ⊢
  by_cases h1 : c = Player.R ∧ (p.x = 1 ∨ p.x = 24)
  · rw [if_pos h1]
  · rw [if_neg h1] at h ⊢
    by_cases h2 : c = Player.B ∧ (p.y = 1 ∨ p.y = 24)
    · rw [if_pos h2]
    · rw [if_neg h2] at h ⊢
      by_cases h3 : b.getPeg p.asTuple ≠ some Player.X
      · rw [if_pos h3]
      · rw [if_neg h3] at h
        simp at h

theorem placeBarrier_false_eq (b : Board) (p q : Peg) (c : Player)
    (h : (b.placeBarrier p q c).1 = false) : (b.placeBarrier p q c).2 = b := by
  rw [Board.placeBarrier.eq_def] at h ⊢
  by_cases h1 : dist2 p q ≠ 5
  · rw [if_pos h1]
  · rw [if_neg h1] at h ⊢
    by_cases h2 : b.getPeg p.asTuple ≠ some c ∨ b.getPeg q.asTuple ≠ some c
    · rw [if_pos h2]
    · rw [if_neg h2] at h ⊢
      by_cases h3 : (b.redBarrierState ++ b.blackBarrierState).any
          (fun br => barrierConflict p q br.1 br.2) = true
      · rw [if_pos h3]
      · rw [if_neg h3] at h ⊢
        cases c with
        | R => simp at h
        | B => simp at h
        | X => rfl

theorem removePeg_false_eq (b : Board) (p : Peg) (c : Player)
    (h : (b.removePeg p c).1 = false) : (b.removePeg p c).2 = b := by
  rw [Board.removePeg] at h ⊢
  by_cases h1 : b.getPeg p.asTuple = some c
  · rw [if_pos h1] at h
    by_cases h2 : c = Player.R
    · rw [if_pos h2] at h
      simp at h
    · rw [if_neg h2] at h
      simp at h
  · rw [if_neg h1]

theorem removeBarrier_false_eq (b : Board) (p q : Peg) (c : Player)
    (h : (b.removeBarrier p q c).1 = false) : (b.removeBarrier p q c).2 = b := by
  rw [Board.removeBarrier] at h ⊢
  by_cases h1 : c = Player.R
  · rw [if_pos h1] at h ⊢
    cases hrm : removeFirstBarrier (canonBarrier p q) b.redBarrierState with
    | none => rfl
    | some l =>
      rw [hrm] at h
      simp at h
  · rw [if_neg h1] at h ⊢
    cases hrm : removeFirstBarrier (canonBarrier p q) b.blackBarrierState with
    | none => rfl
    | some l =>
      rw [hrm] at h
      simp at h

/-- C7: whenever any of the four mutating operations returns false, the
entire board state is unchanged — no partial mutation on failure. -/
theorem claim_C7_failure_no_mutation (b : Board) :
    (∀ (p : Peg) (c : Player), (b.placePeg p c).1 = false → (b.placePeg p c).2 = b) ∧
    (∀ (p q : Peg) (c : Player),
      (b.placeBarrier p q c).1 = false → (b.placeBarrier p q c).2 = b) ∧
    (∀ (p : Peg) (c : Player), (b.removePeg p c).1 = false → (b.removePeg p c).2 = b) ∧
    (∀ (p q : Peg) (c : Player),
      (b.removeBarrier p q c).1 = false → (b.removeBarrier p q c).2 = b) :=
  ⟨fun p c h => placePeg_false_eq b p c h,
   fun p q c h => placeBarrier_false_eq b p q c h,
   fun p c h => removePeg_false_eq b p c h,
   fun p q c h => removeBarrier_false_eq b p q c h⟩

theorem claim_C7_witness :
    (freshBoard.placePeg ⟨1, 5⟩ Player.R).2 = freshBoard ∧
    (freshBoard.placeBarrier ⟨2, 2⟩ ⟨2, 3⟩ Player.R).2 = freshBoard ∧
    (freshBoard.removePeg ⟨2, 2⟩ Player.R).2 = freshBoard ∧
    (freshBoard.removeBarrier ⟨2, 2⟩ ⟨3, 4⟩ Player.R).2 = freshBoard :=
  ⟨(claim_C7_failure_no_mutation freshBoard).1 ⟨1, 5⟩ Player.R (by decide),
   (claim_C7_failure_no_mutation freshBoard).2.1 ⟨2, 2⟩ ⟨2, 3⟩ Player.R (by decide),
   (claim_C7_failure_no_mutation freshBoard).2.2.1 ⟨2, 2⟩ Player.R (by decide),
   (claim_C7_failure_no_mutation freshBoard).2.2.2 ⟨2, 2⟩ ⟨3, 4⟩ Player.R (by decide)⟩

/-- C6: `placeBarrier` fails with no mutation whenever the squared distance
of the endpoints is not 5 or either endpoint does not hold the mover's
color; the spec's example pair (2,2)-(3,4) succeeds for red on a board
holding only those two red pegs, while (2,2)-(4,4) always fails. -/
theorem claim_C6_placeBarrier_preconditions :
    (∀ (b : Board) (pA pB : Peg) (c : Player),
        (dist2 pA pB ≠ 5 ∨ b.getPeg pA.asTuple ≠ some c ∨ b.getPeg pB.asTuple ≠ some c) →
        b.placeBarrier pA pB c = (false, b)) ∧
    (demoRed2.placeBarrier ⟨2, 2⟩ ⟨3, 4⟩ Player.R).1 = true ∧
    (∀ (b : Board) (c : Player), (b.placeBarrier ⟨2, 2⟩ ⟨4, 4⟩ c).1 = false) := by
  have hmain : ∀ (b : Board) (pA pB : Peg) (c : Player),
      (dist2 pA pB ≠ 5 ∨ b.getPeg pA.asTuple ≠ some c ∨ b.getPeg pB.asTuple ≠ some c) →
      b.placeBarrier pA pB c = (false, b) := by
    intro b pA pB c h
    rw [Board.placeBarrier.eq_def]
    by_cases hd : dist2 pA pB ≠ 5
    · rw [if_pos hd]
    · rw [if_neg hd]
      have ho : b.getPeg pA.asTuple ≠ some c ∨ b.getPeg pB.asTuple ≠ some c := by
        rcases h with h | h | h
        · exact absurd h hd
        · exact Or.inl h
        · exact Or.inr h
      rw [if_pos ho]
  refine ⟨hmain, by decide, ?_⟩
  intro b c
  rw [hmain b ⟨2, 2⟩ ⟨4, 4⟩ c (Or.inl (by decide))]

theorem claim_C6_witness :
    freshBoard.placeBarrier ⟨2, 2⟩ ⟨4, 4⟩ Player.R = (false, freshBoard) :=
  claim_C6_placeBarrier_preconditions.1 freshBoard ⟨2, 2⟩ ⟨4, 4⟩ Player.R (Or.inl (by decide))

/-- C10: calling `placePeg` with the `None` player value on an in-grid
empty cell returns true while changing nothing: the home-line checks are
skipped for `None`, the cell is re-set to `None`, and no barrier list is
touched, so the success boolean implies no state change. -/
theorem claim_C10_placePeg_none_noop (b : Board) (peg : Peg)
    (hg : InGrid peg.asTuple) (hx : b.getPeg peg.asTuple = some Player.X) :
    b.placePeg peg Player.X = (true, b) := by
  rw [Board.placePeg]
  have h1 : ¬(Player.X = Player.R ∧ (peg.x = 1 ∨ peg.x = 24)) := by
    rintro ⟨h, _⟩
    cases h
  have h2 : ¬(Player.X = Player.B ∧ (peg.y = 1 ∨ peg.y = 24)) := by
    rintro ⟨h, _⟩
    cases h
  have h3 : ¬(b.getPeg peg.asTuple ≠ some Player.X) := fun h => h hx
  rw [if_neg h1, if_neg h2, if_neg h3]
  have h4 : setPegMap b.pegState peg.asTuple Player.X = b.pegState := by
    rw [setPegMap]
    rw [Board.getPeg_eq] at hx
    rw [← hx]
    exact Function.update_eq_self _ _
  rw [h4]

theorem claim_C10_witness : freshBoard.placePeg ⟨2, 2⟩ Player.X = (true, freshBoard) :=
  claim_C10_placePeg_none_noop freshBoard ⟨2, 2⟩ (by decide) (by decide)

/-- The spec's forbidden placement lines of a mover: red may not place in
columns 1 and 24, black may not place in rows 1 and 24. -/
def ForbiddenLine (c : Player) (p : Peg) : Prop :=
  (c = Player.R ∧ (p.x = 1 ∨ p.x = 24)) ∨ (c = Player.B ∧ (p.y = 1 ∨ p.y = 24))

instance (c : Player) (p : Peg) : Decidable (ForbiddenLine c p) := by
  unfold ForbiddenLine
  infer_instance

/-- C3: for a real color, `placePeg` succeeds iff the target cell currently
holds `None` and the peg avoids the mover's forbidden lines; success
performs exactly the single-cell update and nothing else, failure changes
nothing, and a second `placePeg` at the same coordinate after a success
fails for every color. -/
theorem claim_C3_placePeg_spec (b : Board) (peg : Peg) (c : Player)
    (hc : c = Player.R ∨ c = Player.B) :
    ((b.placePeg peg c).1 = true ↔
      (b.getPeg peg.asTuple = some Player.X ∧ ¬ForbiddenLine c peg)) ∧
    ((b.placePeg peg c).1 = true →
      (b.placePeg peg c).2 = { b with pegState := setPegMap b.pegState peg.asTuple c }) ∧
    ((b.placePeg peg c).1 = false → (b.placePeg peg c).2 = b) ∧
    ((b.placePeg peg c).1 = true →
      ∀ c2, ((b.placePeg peg c).2.placePeg peg c2).1 = false) := by
  by_cases h1 : c = Player.R ∧ (peg.x = 1 ∨ peg.x = 24)
  · rw [Board.placePeg, if_pos h1]
    refine ⟨?_, ?_, fun _ => rfl, ?_⟩
    · simp only [Bool.false_eq_true, false_iff]
      rintro ⟨_, hno⟩
      exact hno (Or.inl h1)
    · intro h
      simp at h
    · intro h
      simp at h
  · by_cases h2 : c = Player.B ∧ (peg.y = 1 ∨ peg.y = 24)
    · rw [Board.placePeg, if_neg h1, if_pos h2]
      refine ⟨?_, ?_, fun _ => rfl, ?_⟩
      · simp only [Bool.false_eq_true, false_iff]
        rintro ⟨_, hno⟩
        exact hno (Or.inr h2)
      · intro h
        simp at h
      · intro h
        simp at h
    · by_cases h3 : b.getPeg peg.asTuple ≠ some Player.X
      · rw [Board.placePeg, if_neg h1, if_neg h2, if_pos h3]
        refine ⟨?_, ?_, fun _ => rfl, ?_⟩
        · simp only [Bool.false_eq_true, false_iff]
          rintro ⟨hx, _⟩
          exact h3 hx
        · intro h
          simp at h
        · intro h
          simp at h
      · rw [Board.placePeg, if_neg h1, if_neg h2, if_neg h3]
        push_neg at h3
        refine ⟨?_, fun _ => rfl, ?_, ?_⟩
        · simp only [true_iff]
          refine ⟨h3, ?_⟩
          rintro (hf | hf)
          · exact h1 hf
          · exact h2 hf
        · intro h
          simp at h
        · intro _ c2
          rw [Board.placePeg]
          by_cases g1 : c2 = Player.R ∧ (peg.x = 1 ∨ peg.x = 24)
          · rw [if_pos g1]
          · rw [if_neg g1]
            by_cases g2 : c2 = Player.B ∧ (peg.y = 1 ∨ peg.y = 24)
            · rw [if_pos g2]
            · rw [if_neg g2]
              have g3 : ({ b with pegState := setPegMap b.pegState peg.asTuple c } :
                  Board).getPeg peg.asTuple = some c := by
                rw [Board.getPeg_eq]
                show setPegMap b.pegState peg.asTuple c peg.asTuple = some c
                rw [setPegMap, Function.update_same]
              rw [if_pos ?_]
              rw [g3]
              rcases hc with rfl | rfl
              · intro he
                cases he
              · intro he
                cases he

theorem claim_C3_witness :
    (freshBoard.placePeg ⟨3, 3⟩ Player.R).1 = true ∧
    ((freshBoard.placePeg ⟨3, 3⟩ Player.R).2.placePeg ⟨3, 3⟩ Player.B).1 = false := by
  have h := claim_C3_placePeg_spec freshBoard ⟨3, 3⟩ Player.R (Or.inl rfl)
  have h1 : (freshBoard.placePeg ⟨3, 3⟩ Player.R).1 = true := h.1.2 ⟨by decide, by decide⟩
  exact ⟨h1, h.2.2.2 h1 Player.B⟩

theorem Peg.equals_false_iff (p q : Peg) : p.equals q = false ↔ p ≠ q := by
  rw [Bool.eq_false_iff, ne_eq, Peg.equals_iff]

theorem filter_touch_congr (peg : Peg) (lst : List (Peg × Peg)) :
    lst.filter (fun v => !(peg.equals v.1) && !(peg.equals v.2))
      = lst.filter (fun br => decide (br.1 ≠ peg ∧ br.2 ≠ peg)) := by
  apply List.filter_congr
  intro br _
  rw [Bool.eq_iff_iff]
  simp only [Bool.and_eq_true, Bool.not_eq_true', Peg.equals_false_iff, decide_eq_true_eq]
  constructor
  · intro h
    exact ⟨Ne.symm h.1, Ne.symm h.2⟩
  · intro h
    exact ⟨Ne.symm h.1, Ne.symm h.2⟩

/-- C5: for a real color, `removePeg` fails with no change unless the cell
holds that color's peg; on success it deletes exactly the owner's barriers
touching the peg (no others, of either player), resets the cell to `None`
and returns true, after which `getAdjacentPegs` at the peg is empty. -/
theorem claim_C5_removePeg_spec (b : Board) (peg : Peg) (c : Player)
    (hc : c = Player.R ∨ c = Player.B) :
    (b.getPeg peg.asTuple ≠ some c → b.removePeg peg c = (false, b)) ∧
    (b.getPeg peg.asTuple = some c →
      (b.removePeg peg c).1 = true ∧
      (b.removePeg peg c).2.pegState = setPegMap b.pegState peg.asTuple Player.X ∧
      (c = Player.R →
        (b.removePeg peg c).2.redBarrierState
            = b.redBarrierState.filter (fun br => decide (br.1 ≠ peg ∧ br.2 ≠ peg)) ∧
        (b.removePeg peg c).2.blackBarrierState = b.blackBarrierState) ∧
      (c = Player.B →
        (b.removePeg peg c).2.blackBarrierState
            = b.blackBarrierState.filter (fun br => decide (br.1 ≠ peg ∧ br.2 ≠ peg)) ∧
        (b.removePeg peg c).2.redBarrierState = b.redBarrierState) ∧
      (b.removePeg peg c).2.getAdjacentPegs peg = []) := by
  refine ⟨?_, ?_⟩
  · intro hne
    rw [Board.removePeg, if_neg hne]
  · intro heq
    rcases hc with rfl | rfl
    · rw [Board.removePeg, if_pos heq, if_pos rfl]
      refine ⟨rfl, rfl, ?_, ?_, ?_⟩
      · intro _
        exact ⟨filter_touch_congr peg b.redBarrierState, rfl⟩
      · intro he
        cases he
      · have hv : (⟨setPegMap b.pegState peg.asTuple Player.X,
            b.redBarrierState.filter (fun v => !(peg.equals v.1) && !(peg.equals v.2)),
            b.blackBarrierState⟩ : Board).getPeg peg.asTuple = some Player.X := by
          rw [Board.getPeg_eq]
          show setPegMap b.pegState peg.asTuple Player.X peg.asTuple = some Player.X
          rw [setPegMap, Function.update_same]
        rw [Board.getAdjacentPegs, hv]
    · rw [Board.removePeg, if_pos heq, if_neg (by intro he; cases he)]
      refine ⟨rfl, rfl, ?_, ?_, ?_⟩
      · intro he
        cases he
      · intro _
        exact ⟨filter_touch_congr peg b.blackBarrierState, rfl⟩
      · have hv : (⟨setPegMap b.pegState peg.asTuple Player.X, b.redBarrierState,
            b.blackBarrierState.filter
              (fun v => !(peg.equals v.1) && !(peg.equals v.2))⟩ : Board).getPeg
            peg.asTuple = some Player.X := by
          rw [Board.getPeg_eq]
          show setPegMap b.pegState peg.asTuple Player.X peg.asTuple = some Player.X
          rw [setPegMap, Function.update_same]
        rw [Board.getAdjacentPegs, hv]

theorem claim_C5_witness :
    (demoRed3.removePeg ⟨2, 2⟩ Player.R).1 = true ∧
    (demoRed3.removePeg ⟨2, 2⟩ Player.R).2.redBarrierState
        = demoRed3.redBarrierState.filter
            (fun br => decide (br.1 ≠ (⟨2, 2⟩ : Peg) ∧ br.2 ≠ (⟨2, 2⟩ : Peg))) ∧
    (demoRed3.removePeg ⟨2, 2⟩ Player.R).2.blackBarrierState = demoRed3.blackBarrierState ∧
    (demoRed3.removePeg ⟨2, 2⟩ Player.R).2.getAdjacentPegs ⟨2, 2⟩ = [] := by
  have h := (claim_C5_removePeg_spec demoRed3 ⟨2, 2⟩ Player.R (Or.inl rfl)).2 (by decide)
  exact ⟨h.1, (h.2.2.1 rfl).1, (h.2.2.1 rfl).2, h.2.2.2.2⟩

theorem ne_of_dist2_five {p q : Peg} (h : dist2 p q = 5) : p ≠ q := by
  intro he
  subst he
  simp [dist2] at h

/-- The proposed barrier always conflicts with a stored copy of itself: the
slopes agree (also when the canonical order swapped the endpoints) and the
endpoint match fires. -/
theorem conflict_canon (pA pB : Peg) :
    barrierConflict pA pB (canonBarrier pA pB).1 (canonBarrier pA pB).2 = true := by
  rcases canonBarrier_cases pA pB with hc | hc <;> rw [hc]
  · simp only [barrierConflict]
    rw [if_pos trivial]
    simp [Bool.or_eq_true, Bool.and_eq_true, Peg.equals_iff]
  · simp only [barrierConflict]
    have hm : ((pB.y : ℚ) - (pA.y : ℚ)) / ((pB.x : ℚ) - (pA.x : ℚ))
        = ((pA.y : ℚ) - (pB.y : ℚ)) / ((pA.x : ℚ) - (pB.x : ℚ)) := by
      rw [show ((pA.y : ℚ) - (pB.y : ℚ)) = -((pB.y : ℚ) - (pA.y : ℚ)) by ring,
        show ((pA.x : ℚ) - (pB.x : ℚ)) = -((pB.x : ℚ) - (pA.x : ℚ)) by ring, neg_div_neg_eq]
    rw [if_pos hm]
    simp [Bool.or_eq_true, Bool.and_eq_true, Peg.equals_iff]

theorem removeFirstBarrier_append_self {bar : Peg × Peg} :
    ∀ {lst : List (Peg × Peg)}, bar ∉ lst → removeFirstBarrier bar (lst ++ [bar]) = some lst := by
  intro lst
  induction lst with
  | nil =>
    intro _
    rw [List.nil_append, removeFirstBarrier]
    rw [if_pos (by simp [Bool.and_eq_true, Peg.equals_iff])]
  | cons tb rest ih =>
    intro hn
    rw [List.cons_append, removeFirstBarrier]
    have hne : ¬((bar.1.equals tb.1 && bar.2.equals tb.2) = true) := by
      intro hcon
      rw [Bool.and_eq_true, Peg.equals_iff, Peg.equals_iff] at hcon
      apply hn
      rw [show bar = tb from Prod.ext hcon.1 hcon.2]
      exact List.mem_cons_self _ _
    rw [if_neg hne, ih (fun hm => hn (List.mem_cons_of_mem _ hm))]
    rfl

/-- C8: after a successful `placeBarrier`, `removeBarrier` with the same
endpoints in either order and the same color succeeds and restores the
whole board — in particular the mover's barrier list regains exactly its
previous contents while the occupancy and the other player's barriers were
never touched. -/
theorem claim_C8_roundtrip (b : Board) (pA pB : Peg) (c : Player)
    (h : (b.placeBarrier pA pB c).1 = true) :
    (b.placeBarrier pA pB c).2.removeBarrier pA pB c = (true, b) ∧
    (b.placeBarrier pA pB c).2.removeBarrier pB pA c = (true, b) := by
  rw [Board.placeBarrier.eq_def] at h ⊢
  by_cases h1 : dist2 pA pB ≠ 5
  · rw [if_pos h1] at h
    simp at h
  rw [if_neg h1] at h ⊢
  push_neg at h1
  by_cases h2 : b.getPeg pA.asTuple ≠ some c ∨ b.getPeg pB.asTuple ≠ some c
  · rw [if_pos h2] at h
    simp at h
  rw [if_neg h2] at h ⊢
  by_cases h3 : (b.redBarrierState ++ b.blackBarrierState).any
      (fun br => barrierConflict pA pB br.1 br.2) = true
  · rw [if_pos h3] at h
    simp at h
  rw [if_neg h3] at h ⊢
  rw [Bool.not_eq_true, List.any_eq_false] at h3
  have hnotmem : canonBarrier pA pB ∉ b.redBarrierState ++ b.blackBarrierState := by
    intro hm
    exact (h3 (canonBarrier pA pB) hm) (conflict_canon pA pB)
  have hAB : pA ≠ pB := ne_of_dist2_five h1
  have hcomm : canonBarrier pB pA = canonBarrier pA pB := canonBarrier_comm hAB
  cases c with
  | X => simp at h
  | R =>
    have hrm : removeFirstBarrier (canonBarrier pA pB)
        (b.redBarrierState ++ [canonBarrier pA pB]) = some b.redBarrierState :=
      removeFirstBarrier_append_self (fun hm => hnotmem (List.mem_append_left _ hm))
    constructor
    · rw [Board.removeBarrier, if_pos rfl]
      show (match removeFirstBarrier (canonBarrier pA pB)
          (b.redBarrierState ++ [canonBarrier pA pB]) with
        | some l => (true, ({ b with redBarrierState := l } : Board))
        | none => (false, ({ b with redBarrierState :=
            b.redBarrierState ++ [canonBarrier pA pB] } : Board))) = (true, b)
      rw [hrm]
    · rw [Board.removeBarrier, if_pos rfl, hcomm]
      show (match removeFirstBarrier (canonBarrier pA pB)
          (b.redBarrierState ++ [canonBarrier pA pB]) with
        | some l => (true, ({ b with redBarrierState := l } : Board))
        | none => (false, ({ b with redBarrierState :=
            b.redBarrierState ++ [canonBarrier pA pB] } : Board))) = (true, b)
      rw [hrm]
  | B =>
    have hrm : removeFirstBarrier (canonBarrier pA pB)
        (b.blackBarrierState ++ [canonBarrier pA pB]) = some b.blackBarrierState :=
      removeFirstBarrier_append_self (fun hm => hnotmem (List.mem_append_right _ hm))
    constructor
    · rw [Board.removeBarrier, if_neg (by intro he; cases he)]
      show (match removeFirstBarrier (canonBarrier pA pB)
          (b.blackBarrierState ++ [canonBarrier pA pB]) with
        | some l => (true, ({ b with blackBarrierState := l } : Board))
        | none => (false, ({ b with blackBarrierState :=
            b.blackBarrierState ++ [canonBarrier pA pB] } : Board))) = (true, b)
      rw [hrm]
    · rw [Board.removeBarrier, if_neg (by intro he; cases he), hcomm]
      show (match removeFirstBarrier (canonBarrier pA pB)
          (b.blackBarrierState ++ [canonBarrier pA pB]) with
        | some l => (true, ({ b with blackBarrierState := l } : Board))
        | none => (false, ({ b with blackBarrierState :=
            b.blackBarrierState ++ [canonBarrier pA pB] } : Board))) = (true, b)
      rw [hrm]

theorem claim_C8_witness :
    (demoRed2.placeBarrier ⟨2, 2⟩ ⟨3, 4⟩ Player.R).2.removeBarrier ⟨2, 2⟩ ⟨3, 4⟩ Player.R
        = (true, demoRed2) ∧
    (demoRed2.placeBarrier ⟨2, 2⟩ ⟨3, 4⟩ Player.R).2.removeBarrier ⟨3, 4⟩ ⟨2, 2⟩ Player.R
        = (true, demoRed2) :=
  claim_C8_roundtrip demoRed2 ⟨2, 2⟩ ⟨3, 4⟩ Player.R (by decide)

/-- The spec's description of the adjacency result: the opposite endpoints
of the barriers that have `peg` as one endpoint. -/
def oppositeEndpoints (peg : Peg) (lst : List (Peg × Peg)) : List Peg :=
  (lst.filter (fun br => peg.equals br.1 || peg.equals br.2)).map
    (fun br => if peg.equals br.1 then br.2 else br.1)

theorem getAdjacentPegs_of_other {b : Board} {peg : Peg}
    (h1 : b.getPeg peg.asTuple ≠ some Player.R)
    (h2 : b.getPeg peg.asTuple ≠ some Player.B) :
    b.getAdjacentPegs peg = [] := by
  rw [Board.getAdjacentPegs]
  cases hv : b.getPeg peg.asTuple with
  | none => rfl
  | some v =>
    cases v with
    | R => exact absurd hv h1
    | B => exact absurd hv h2
    | X => rfl

theorem adjCollect_eq_opposite {peg : Peg} :
    ∀ {lst : List (Peg × Peg)}, (∀ br ∈ lst, br.1 ≠ br.2) →
      adjCollect peg lst = oppositeEndpoints peg lst := by
  intro lst
  induction lst with
  | nil =>
    intro _
    rfl
  | cons br rest ih =>
    intro hnd
    have hrest := ih (fun b2 h2 => hnd b2 (List.mem_cons_of_mem _ h2))
    rw [adjCollect, oppositeEndpoints, List.filter_cons]
    cases he1 : peg.equals br.1 with
    | true =>
      cases he2 : peg.equals br.2 with
      | true =>
        exfalso
        have h1 := (Peg.equals_iff _ _).1 he1
        have h2 := (Peg.equals_iff _ _).1 he2
        exact hnd br (List.mem_cons_self _ _) (h1.symm.trans h2)
      | false =>
        simp only [he1, he2, Bool.true_or, if_true, List.map_cons, if_pos]
        rw [hrest, oppositeEndpoints]
        simp
    | false =>
      cases he2 : peg.equals br.2 with
      | true =>
        simp only [he1, he2, Bool.false_or, if_true, List.map_cons]
        rw [hrest, oppositeEndpoints]
        simp
      | false =>
        simp only [he1, he2, Bool.or_self, Bool.false_eq_true, if_false]
        rw [hrest, oppositeEndpoints]
        simp

/-- C9: `getAdjacentPegs` returns the empty list when the cell is not
occupied by a real player; when the cell holds a player's peg it returns
exactly the opposite endpoints of that player's barriers having the peg as
one endpoint, and the result never depends on the other player's
barriers. -/
theorem claim_C9_getAdjacentPegs_spec (b : Board) (peg : Peg) :
    ((b.getPeg peg.asTuple ≠ some Player.R ∧ b.getPeg peg.asTuple ≠ some Player.B) →
      b.getAdjacentPegs peg = []) ∧
    (b.getPeg peg.asTuple = some Player.R → (∀ br ∈ b.redBarrierState, br.1 ≠ br.2) →
      b.getAdjacentPegs peg = oppositeEndpoints peg b.redBarrierState) ∧
    (b.getPeg peg.asTuple = some Player.B → (∀ br ∈ b.blackBarrierState, br.1 ≠ br.2) →
      b.getAdjacentPegs peg = oppositeEndpoints peg b.blackBarrierState) ∧
    (∀ b2 : Board, b2.getPeg peg.asTuple = some Player.R →
      b.getPeg peg.asTuple = some Player.R → b2.redBarrierState = b.redBarrierState →
      b2.getAdjacentPegs peg = b.getAdjacentPegs peg) ∧
    (∀ b2 : Board, b2.getPeg peg.asTuple = some Player.B →
      b.getPeg peg.asTuple = some Player.B → b2.blackBarrierState = b.blackBarrierState →
      b2.getAdjacentPegs peg = b.getAdjacentPegs peg) := by
  refine ⟨?_, ?_, ?_, ?_, ?_⟩
  · intro h
    exact getAdjacentPegs_of_other h.1 h.2
  · intro hv hnd
    rw [getAdjacentPegs_of_R hv]
    exact adjCollect_eq_opposite hnd
  · intro hv hnd
    rw [getAdjacentPegs_of_B hv]
    exact adjCollect_eq_opposite hnd
  · intro b2 hv2 hv hl
    rw [getAdjacentPegs_of_R hv2, getAdjacentPegs_of_R hv, hl]
  · intro b2 hv2 hv hl
    rw [getAdjacentPegs_of_B hv2, getAdjacentPegs_of_B hv, hl]

theorem claim_C9_witness :
    demoRed3.getAdjacentPegs ⟨2, 2⟩ = oppositeEndpoints ⟨2, 2⟩ demoRed3.redBarrierState :=
  (claim_C9_getAdjacentPegs_spec demoRed3 ⟨2, 2⟩).2.1 (by decide) (by decide)

/-- C2: on a board satisfying the specified invariant, a proposal passing
the distance and ownership checks is rejected exactly when some existing
barrier of either player has the same slope and matches its endpoints in
either order, or has a different slope and the two infinite lines intersect
strictly inside both segments' coordinate ranges on both axes.  In
particular a barrier merely touching an existing one at a shared endpoint,
and a collinear-but-distinct barrier, are both accepted, as the two
concrete conjuncts demonstrate. -/
theorem claim_C2_intersection_rejection :
    (∀ (b : Board) (pA pB : Peg) (c : Player), BoardInv b →
        dist2 pA pB = 5 → b.getPeg pA.asTuple = some c → b.getPeg pB.asTuple = some c →
        (c = Player.R ∨ c = Player.B) →
        ((b.placeBarrier pA pB c).1 = false ↔
          ∃ br ∈ b.redBarrierState ++ b.blackBarrierState, SpecRejects pA pB br.1 br.2)) ∧
    (demoShared.placeBarrier ⟨3, 4⟩ ⟨5, 3⟩ Player.R).1 = true ∧
    (demoColl.placeBarrier ⟨4, 6⟩ ⟨5, 8⟩ Player.R).1 = true := by
  refine ⟨?_, ?_, ?_⟩
  · intro b pA pB c _ hd hA hB hc
    rw [Board.placeBarrier.eq_def]
    rw [if_neg (show ¬(dist2 pA pB ≠ 5) from fun h => h hd)]
    rw [if_neg (show ¬(b.getPeg pA.asTuple ≠ some c ∨ b.getPeg pB.asTuple ≠ some c) by
      rintro (h | h)
      · exact h hA
      · exact h hB)]
    by_cases hany : (b.redBarrierState ++ b.blackBarrierState).any
        (fun br => barrierConflict pA pB br.1 br.2) = true
    · rw [if_pos hany]
      constructor
      · intro _
        obtain ⟨br, hbr, hcf⟩ := List.any_eq_true.1 hany
        exact ⟨br, hbr, (barrierConflict_iff_specRejects pA pB br.1 br.2).1 hcf⟩
      · intro _
        rfl
    · rw [if_neg hany]
      have hno : ¬∃ br ∈ b.redBarrierState ++ b.blackBarrierState,
          SpecRejects pA pB br.1 br.2 := by
        rintro ⟨br, hbr, hsr⟩
        exact hany (List.any_eq_true.2
          ⟨br, hbr, (barrierConflict_iff_specRejects pA pB br.1 br.2).2 hsr⟩)
      rcases hc with rfl | rfl
      · exact ⟨fun hf => absurd hf (by simp), fun he => absurd he hno⟩
      · exact ⟨fun hf => absurd hf (by simp), fun he => absurd he hno⟩
  · rw [Board.placeBarrier.eq_def]
    rw [if_neg (by decide), if_neg (by decide)]
    have hred : demoShared.redBarrierState = [(⟨2, 2⟩, ⟨3, 4⟩)] := by decide
    have hblack : demoShared.blackBarrierState = [] := by decide
    rw [hred, hblack]
    have hcf : barrierConflict ⟨3, 4⟩ ⟨5, 3⟩ ⟨2, 2⟩ ⟨3, 4⟩ = false := by
      simp only [barrierConflict, between, Peg.equals]
      norm_num
    have hany : (([(((⟨2, 2⟩ : Peg), (⟨3, 4⟩ : Peg)))] ++ ([] : List (Peg × Peg)))).any
        (fun br => barrierConflict ⟨3, 4⟩ ⟨5, 3⟩ br.1 br.2) = false := by
      rw [List.append_nil, List.any_cons, List.any_nil, hcf]
      rfl
    rw [if_neg (by rw [hany]; simp)]
  · rw [Board.placeBarrier.eq_def]
    rw [if_neg (by decide), if_neg (by decide)]
    have hred : demoColl.redBarrierState = [(⟨2, 2⟩, ⟨3, 4⟩)] := by decide
    have hblack : demoColl.blackBarrierState = [] := by decide
    rw [hred, hblack]
    have hcf : barrierConflict ⟨4, 6⟩ ⟨5, 8⟩ ⟨2, 2⟩ ⟨3, 4⟩ = false := by
      simp only [barrierConflict, between, Peg.equals]
      norm_num
    have hany : (([(((⟨2, 2⟩ : Peg), (⟨3, 4⟩ : Peg)))] ++ ([] : List (Peg × Peg)))).any
        (fun br => barrierConflict ⟨4, 6⟩ ⟨5, 8⟩ br.1 br.2) = false := by
      rw [List.append_nil, List.any_cons, List.any_nil, hcf]
      rfl
    rw [if_neg (by rw [hany]; simp)]

theorem claim_C2_witness :
    (demoCross.placeBarrier ⟨2, 4⟩ ⟨4, 3⟩ Player.R).1 = false ↔
      ∃ br ∈ demoCross.redBarrierState ++ demoCross.blackBarrierState,
        SpecRejects ⟨2, 4⟩ ⟨4, 3⟩ br.1 br.2 :=
  claim_C2_intersection_rejection.1 demoCross ⟨2, 4⟩ ⟨4, 3⟩ Player.R
    (reachable_boardInv reachable_demoCross) (by decide) (by decide) (by decide) (Or.inl rfl)
